import Mathlib

/-! # plpqsort

A verification development for `plpqsort.cc`: an in-place comparison sort that
handles ranges of up to 15 elements with fixed compare-exchange networks and
larger ranges with a partitioning scheme that carries a sorted prefix through
its recursive calls.

The embedding is shallow.  A `std::span<sortable_t>` is a `List Int` (a
`sortable_t` wraps one `int` and is compared by it), an in-place write is
`List.set`, a sub-span is `List.take` or `List.drop`, and the effect of a call
on a sub-span is spliced back into the parent list.  The process-wide generator
`prng` is a stream `rnd : Nat → Nat` together with the index `pos` of the next
value to be drawn.  Loops whose trip count is not fixed take a fuel argument.
-/

namespace Plpqsort

/-! ## Constants and element operations -/

/-- Length of the prefix that the bootstrap step establishes
(`const size_t init_prefix = 15`). -/
def init_prefix : Nat := 15

/-- Least inherited prefix for which the bootstrap step is skipped
(`const size_t min_prefix = 3`). -/
def min_prefix : Nat := 3

/-- The call `std::min(a, b)` on elements: `b` when `b < a`, otherwise `a`. -/
def stdMin (a b : Int) : Int := if b < a then b else a

/-- The call `std::max(a, b)` on elements: `b` when `a < b`, otherwise `a`. -/
def stdMax (a b : Int) : Int := if a < b then b else a

/-- Compare-exchange `ce(a, b)`: the pair of values left in `a` and in `b`. -/
def ce (a b : Int) : Int × Int :=
  let c := stdMin a b
  let d := stdMax a b
  (c, d)

/-- Element read `list[i]`.  The partition loop evaluates `lo[0]` before it
tests `lo < hi`, so it can read the cell one past the end of the range; `past`
is the content of that cell. -/
def rd (past : Int) (list : List Int) (i : Nat) : Int := (list[i]?).getD past

/-- The call `std::swap(list[i], list[j])`, for two cells of the range. -/
def swapAt (list : List Int) (i j : Nat) : List Int :=
  match list[i]?, list[j]? with
  | some a, some b => (list.set i b).set j a
  | _, _ => list

/-- The call `ce(list[i], list[j])`, for two cells of the range. -/
def ceAt (list : List Int) (i j : Nat) : List Int :=
  match list[i]?, list[j]? with
  | some a, some b => (list.set i (ce a b).1).set j (ce a b).2
  | _, _ => list

/-! ## Random source -/

/-- One draw of `std::uniform_int_distribution<T> d(a, b)`: the value `raw`
supplied by the generator is mapped into the closed interval `[a, b]`. -/
def uniform_int_distribution (a b raw : Nat) : Nat := a + raw % (b - a + 1)

/-- The call `randint(lo, hi)` when the generator supplies `raw`. -/
def randint (lo hi raw : Nat) : Nat := uniform_int_distribution lo (hi - 1) raw

/-! ## Network library -/

/-- The compare-exchange sequence of each `case` of the `switch` in
`specialcase`, in source order (for sizes 8 to 15 one row per source line);
`none` is the fall-through past the `switch`. -/
def network : Nat → Option (List (Nat × Nat))
  | 0 => some []
  | 1 => some []
  | 2 => some [(0, 1)]
  | 3 => some [(0, 2), (0, 1), (1, 2)]
  | 4 => some [(0, 2), (1, 3), (0, 1), (2, 3), (1, 2)]
  | 5 => some
      [(0, 3), (1, 4), (0, 2), (1, 3), (0, 1), (2, 4),
       (1, 2), (3, 4), (2, 3)]
  | 6 => some
      [(0, 5), (1, 3), (2, 4), (1, 2), (3, 4), (0, 3),
       (2, 5), (0, 1), (2, 3), (4, 5), (1, 2), (3, 4)]
  | 7 => some
      [(0, 6), (2, 3), (4, 5), (0, 2), (1, 4), (3, 6),
       (0, 1), (2, 5), (3, 4), (1, 2), (4, 6), (2, 3),
       (4, 5), (1, 2), (3, 4), (5, 6)]
  | 8 => some
      [(0, 2), (1, 3), (4, 6), (5, 7),
       (0, 4), (1, 5), (2, 6), (3, 7),
       (0, 1), (2, 3), (4, 5), (6, 7),
       (2, 4), (3, 5),
       (1, 4), (3, 6),
       (1, 2), (3, 4), (5, 6)]
  | 9 => some
      [(0, 3), (1, 7), (2, 5), (4, 8),
       (0, 7), (2, 4), (3, 8), (5, 6),
       (0, 2), (1, 3), (4, 5), (7, 8),
       (1, 4), (3, 6), (5, 7),
       (0, 1), (2, 4), (3, 5), (6, 8),
       (2, 3), (4, 5), (6, 7),
       (1, 2), (3, 4), (5, 6)]
  | 10 => some
      [(0, 1), (2, 5), (3, 6), (4, 7), (8, 9),
       (0, 6), (1, 8), (2, 4), (3, 9), (5, 7),
       (0, 2), (1, 3), (4, 5), (6, 8), (7, 9),
       (0, 1), (2, 7), (3, 5), (4, 6), (8, 9),
       (1, 2), (3, 4), (5, 6), (7, 8),
       (1, 3), (2, 4), (5, 7), (6, 8),
       (2, 3), (4, 5), (6, 7)]
  | 11 => some
      [(0, 9), (1, 6), (2, 4), (3, 7), (5, 8),
       (0, 1), (3, 5), (4, 10), (6, 9), (7, 8),
       (1, 3), (2, 5), (4, 7), (8, 10),
       (0, 4), (1, 2), (3, 7), (5, 9), (6, 8),
       (0, 1), (2, 6), (4, 5), (7, 8), (9, 10),
       (2, 4), (3, 6), (5, 7), (8, 9),
       (1, 2), (3, 4), (5, 6), (7, 8),
       (2, 3), (4, 5), (6, 7)]
  | 12 => some
      [(0, 8), (1, 7), (2, 6), (3, 11), (4, 10), (5, 9),
       (0, 2), (1, 4), (3, 5), (6, 8), (7, 10), (9, 11),
       (0, 1), (2, 9), (4, 7), (5, 6), (10, 11),
       (1, 3), (2, 7), (4, 9), (8, 10),
       (0, 1), (2, 3), (4, 5), (6, 7), (8, 9), (10, 11),
       (1, 2), (3, 5), (6, 8), (9, 10),
       (2, 4), (3, 6), (5, 8), (7, 9),
       (1, 2), (3, 4), (5, 6), (7, 8), (9, 10)]
  | 13 => some
      [(0, 11), (1, 7), (2, 4), (3, 5), (8, 9), (10, 12),
       (0, 2), (3, 6), (4, 12), (5, 7), (8, 10),
       (0, 8), (1, 3), (2, 5), (4, 9), (6, 11), (7, 12),
       (0, 1), (2, 10), (3, 8), (4, 6), (9, 11),
       (1, 3), (2, 4), (5, 10), (6, 8), (7, 9), (11, 12),
       (1, 2), (3, 4), (5, 8), (6, 9), (7, 10),
       (2, 3), (4, 7), (5, 6), (8, 11), (9, 10),
       (4, 5), (6, 7), (8, 9), (10, 11),
       (3, 4), (5, 6), (7, 8), (9, 10)]
  | 14 => some
      [(0, 1), (2, 3), (4, 5), (6, 7), (8, 9), (10, 11), (12, 13),
       (0, 2), (1, 3), (4, 8), (5, 9), (10, 12), (11, 13),
       (0, 10), (1, 6), (2, 11), (3, 13), (5, 8), (7, 12),
       (1, 4), (2, 8), (3, 6), (5, 11), (7, 10), (9, 12),
       (0, 1), (3, 9), (4, 10), (5, 7), (6, 8), (12, 13),
       (1, 5), (2, 4), (3, 7), (6, 10), (8, 12), (9, 11),
       (1, 2), (3, 5), (4, 6), (7, 9), (8, 10), (11, 12),
       (2, 3), (4, 5), (6, 7), (8, 9), (10, 11),
       (3, 4), (5, 6), (7, 8), (9, 10)]
  | 15 => some
      [(0, 6), (1, 10), (2, 14), (3, 9), (4, 12), (5, 13), (7, 11),
       (0, 7), (2, 5), (3, 4), (6, 11), (8, 10), (9, 12), (13, 14),
       (1, 13), (2, 3), (4, 6), (5, 9), (7, 8), (10, 14), (11, 12),
       (0, 3), (1, 4), (5, 7), (6, 13), (8, 9), (10, 11), (12, 14),
       (0, 2), (1, 5), (3, 8), (4, 6), (7, 10), (9, 11), (12, 13),
       (0, 1), (2, 5), (3, 10), (4, 8), (6, 7), (9, 12), (11, 13),
       (1, 2), (3, 4), (5, 6), (7, 9), (8, 10), (11, 12),
       (3, 5), (4, 6), (7, 8), (9, 10),
       (2, 3), (4, 5), (6, 7), (8, 9), (10, 11)]
  | _ => none

/-- Runs a compare-exchange sequence over the list, first pair first. -/
def applyNetwork (net : List (Nat × Nat)) (list : List Int) : List Int :=
  net.foldl (fun acc ij => ceAt acc ij.1 ij.2) list

/-- Result of `specialcase`: the returned flag, the list as the call leaves it
and the number of compare-exchanges it performed. -/
structure Special where
  ok : Bool
  list : List Int
  ops : Nat

/-- The function `specialcase(list, prefix)`. -/
def specialcase (list : List Int) (pre : Nat) : Special :=
  if pre = list.length then ⟨true, list, 0⟩
  else
    match network list.length with
    | some net => ⟨true, applyNetwork net list, net.length⟩
    | none => ⟨false, list, 0⟩

/-! ## The partitioning call -/

/-- Ways in which a run can stop without a result. -/
inductive Fault where
  | assertion
  | fuel
  deriving DecidableEq, Repr

deriving instance DecidableEq for Except

/-- The bootstrap loop `for (i = prefix; i < new_prefix; ++i)`: `k` iterations
remain, `i` is the loop variable.  Returns the list and the generator index. -/
def shuffle (rnd : Nat → Nat) : Nat → Nat → Nat → List Int → List Int × Nat
  | 0, _, pos, list => (list, pos)
  | k + 1, i, pos, list =>
    let j := randint i list.length (rnd pos)
    shuffle rnd k (i + 1) (pos + 1) (swapAt list i j)

/-- State after the bootstrap step of `sort`. -/
structure Seeded where
  list : List Int
  pre : Nat
  pos : Nat
  ops : Nat
  deriving DecidableEq

/-- The block `if (prefix < min_prefix) { ... }` of `sort`. -/
def bootstrap (rnd : Nat → Nat) (pos : Nat) (list : List Int) (pre : Nat) :
    Except Fault Seeded :=
  if pre < min_prefix then
    let newPre := min init_prefix list.length
    let sh := shuffle rnd (newPre - pre) pre pos list
    let sc := specialcase (sh.1.take newPre) pre
    if sc.ok = false then .error Fault.assertion
    else .ok ⟨sc.list ++ sh.1.drop newPre, newPre, sh.2, (newPre - pre) + sc.ops⟩
  else .ok ⟨list, pre, pos, 0⟩

/-- The pivot rewind
`while (left_prefix > 0 && !(list[left_prefix - 1] < list[left_prefix])) --left_prefix;`
by recursion on `left_prefix`. -/
def rewind (past : Int) (list : List Int) : Nat → Nat
  | 0 => 0
  | k + 1 => if ¬ (rd past list k < rd past list (k + 1)) then rewind past list k else k + 1

/-- The scan `while (lo[0] < pivot && lo < hi) ++lo;` where `pivot` refers to
`list[lp]`.  The guard `lo < hi` allows at most `hi - lo` iterations, which is
the fuel the caller passes. -/
def scanLo (past : Int) (list : List Int) (lp hi : Nat) : Nat → Nat → Nat
  | 0, lo => lo
  | fuel + 1, lo =>
    if rd past list lo < rd past list lp ∧ lo < hi then scanLo past list lp hi fuel (lo + 1)
    else lo

/-- The scan `while (!(hi[-1] < pivot) && lo < hi) --hi;` by recursion on `hi`. -/
def scanHi (past : Int) (list : List Int) (lp lo : Nat) : Nat → Nat
  | 0 => 0
  | h + 1 =>
    if ¬ (rd past list h < rd past list lp) ∧ lo < h + 1 then scanHi past list lp lo h
    else h + 1

/-- State of the partition loop on exit. -/
structure Parted where
  list : List Int
  lo : Nat
  hi : Nat
  ops : Nat

/-- The partition loop `for (;;) { ... }` of `sort`; `none` when the fuel is
used up before the loop breaks. -/
def partitionLoop (past : Int) (lp : Nat) : Nat → List Int → Nat → Nat → Nat → Option Parted
  | 0, _, _, _, _ => none
  | fuel + 1, list, lo, hi, ops =>
    let lo1 := scanLo past list lp hi (hi - lo) lo
    let hi1 := scanHi past list lp lo1 hi
    if ¬ (lo1 < hi1) then some ⟨list, lo1, hi1, ops⟩
    else partitionLoop past lp fuel (swapAt list lo1 (hi1 - 1)) lo1 hi1 (ops + 1)

/-- The relocation loop `for (i = 0; i < right_prefix; ++i) std::swap(*--lo, *--unsorted);`
with `k` iterations remaining.  Returns the list, `lo` and `unsorted`. -/
def relocate : Nat → List Int → Nat → Nat → List Int × Nat × Nat
  | 0, list, lo, unsorted => (list, lo, unsorted)
  | k + 1, list, lo, unsorted =>
    relocate k (swapAt list (lo - 1) (unsorted - 1)) (lo - 1) (unsorted - 1)

/-- The cull loop `while (hi < list.end() && !(pivot < *hi)) ++hi;` where `pivot`
refers to `list[lo]`.  The guard allows at most `list.size() - hi` iterations. -/
def cull (past : Int) (list : List Int) (lo : Nat) : Nat → Nat → Nat
  | 0, hi => hi
  | fuel + 1, hi =>
    if hi < list.length ∧ ¬ (rd past list lo < rd past list hi) then
      cull past list lo fuel (hi + 1)
    else hi

/-- State of `sort` at the moment the two children are formed: the list, the
bounds of the excluded pivot run `[lo, hi)`, the prefixes handed to the two
children, the generator index and the number of exchanges made so far. -/
structure Split where
  list : List Int
  lo : Nat
  hi : Nat
  leftPre : Nat
  rightPre : Nat
  pos : Nat
  ops : Nat
  deriving DecidableEq

/-- The left child `list.first(lo - list.begin())`. -/
def Split.left (s : Split) : List Int := s.list.take s.lo

/-- The excluded pivot run, positions `lo` up to `hi`. -/
def Split.run (s : Split) : List Int := (s.list.drop s.lo).take (s.hi - s.lo)

/-- The right child `list.subspan(hi - list.begin())`. -/
def Split.right (s : Split) : List Int := s.list.drop s.hi

/-- The pivot value `*lo` that the two children are bounded by. -/
def Split.pivot (past : Int) (s : Split) : Int := rd past s.list s.lo

/-- The body of `sort` from the bootstrap step up to the point where the two
children are formed, for a call that `specialcase` did not handle. -/
def split (rnd : Nat → Nat) (past : Int) (pos : Nat) (list0 : List Int) (pre0 : Nat) :
    Except Fault Split :=
  match bootstrap rnd pos list0 pre0 with
  | .error e => .error e
  | .ok b =>
    let lp := rewind past b.list (b.pre / 2)
    match partitionLoop past lp (b.list.length + 1) b.list b.pre b.list.length 0 with
    | none => .error Fault.fuel
    | some q =>
      let r := b.pre - lp
      let m := relocate r q.list q.lo b.pre
      let lo := m.2.1
      let hi := cull past m.1 lo (m.1.length - (lo + 1)) (lo + 1)
      let rp := if hi < lo + r then (lo + r) - hi else 0
      .ok ⟨m.1, lo, hi, lp, rp, b.pos, b.ops + q.ops + r⟩

/-- Result of a completed call of `sort`: the list, the generator index and
the number of compare-exchanges and swaps performed. -/
structure Run where
  list : List Int
  pos : Nat
  ops : Nat
  deriving DecidableEq

/-- The function `sort(list, prefix)`.  `fuel` bounds the recursion depth; the
left child's cell one past its end is the pivot cell of the parent.  With
`debug_base` null, as in `main`, the children go to `sort` directly. -/
def sort (rnd : Nat → Nat) : Nat → Int → Nat → List Int → Nat → Except Fault Run
  | 0, _, _, _, _ => .error Fault.fuel
  | fuel + 1, past, pos, list, pre =>
    let sc := specialcase list pre
    if sc.ok then .ok ⟨sc.list, pos, sc.ops⟩
    else
      match split rnd past pos list pre with
      | .error e => .error e
      | .ok s =>
        match sort rnd fuel (s.pivot past) s.pos s.left s.leftPre with
        | .error e => .error e
        | .ok a =>
          match sort rnd fuel past a.pos s.right s.rightPre with
          | .error e => .error e
          | .ok b => .ok ⟨a.list ++ s.run ++ b.list, b.pos, s.ops + a.ops + b.ops⟩

/-- The entry call `sort(list)` of `main`, with the default prefix 0. -/
def sortEntry (rnd : Nat → Nat) (past : Int) (list : List Int) : Except Fault Run :=
  sort rnd (list.length + 1) past 0 list 0

/-! ## Verifier -/

/-- Row width `const int stride = 16` of the verifier. -/
def stride : Nat := 16

/-- The inner loop `for (j = 0; j < stride && i + j < list.size(); ++j)` of
`is_bounded` on the row starting at `i`, accumulating `row_ok`; the guard keeps
`i + j` inside the list. -/
def boundedRow (list : List Int) (left : Bool) (pivot : Int) (i : Nat) : Nat → Nat → Bool → Bool
  | 0, _, row_ok => row_ok
  | fuel + 1, j, row_ok =>
    if j < stride ∧ i + j < list.length then
      let p := rd pivot list (i + j)
      let ok := if left then decide (p < pivot) else !decide (p < pivot)
      boundedRow list left pivot i fuel (j + 1) (row_ok && ok)
    else row_ok

/-- The outer loop `for (i = 0; i < list.size(); i += stride)` of `is_bounded`,
accumulating `success`. -/
def boundedRows (list : List Int) (left : Bool) (pivot : Int) : Nat → Nat → Bool → Bool
  | 0, _, success => success
  | fuel + 1, i, success =>
    if i < list.length then
      let row_ok := boundedRow list left pivot i stride 0 true
      boundedRows list left pivot fuel (i + stride) (if !row_ok then false else success)
    else success

/-- The function `is_bounded(list, prefix, left, pivot)`; its `prefix` and
`header` arguments only affect what is printed. -/
def is_bounded (list : List Int) (left : Bool) (pivot : Int) : Bool :=
  boundedRows list left pivot list.length 0 true

/-- The reference `std::sort(ref.begin(), ref.end())` of `main`: an ascending
sort of the same elements. -/
def referenceSort (list : List Int) : List Int := list.insertionSort (· ≤ ·)

/-- Non-decreasing order of a list. -/
def Ascending (list : List Int) : Prop := list.Sorted (· ≤ ·)

instance (list : List Int) : Decidable (Ascending list) := by
  unfold Ascending; infer_instance

/-! ## Auxiliary definitions for the network proofs -/

/-- A compare-exchange over any carrier, with the two results given by `mn`
and `mx`; `ceAt` is the instance at `stdMin` and `stdMax`. -/
def cexAt {α : Type} (mn mx : α → α → α) (l : List α) (i j : Nat) : List α :=
  match l[i]?, l[j]? with
  | some a, some b => (l.set i (mn a b)).set j (mx a b)
  | _, _ => l

/-- A compare-exchange sequence run over any carrier. -/
def runNet {α : Type} (mn mx : α → α → α) (net : List (Nat × Nat)) (l : List α) : List α :=
  net.foldl (fun acc ij => cexAt mn mx acc ij.1 ij.2) l

/-- Truth tables of `n` Boolean inputs: bit `x` of the table at position `k`
is the value of input `k` under the assignment numbered `x`. -/
def tables : Nat → List Nat
  | 0 => []
  | n + 1 => ((2 ^ (2 ^ n) - 1) <<< (2 ^ n)) :: (tables n).map (fun w => w ||| (w <<< (2 ^ n)))

/-- Each table is contained, as a set of assignments, in the next one. -/
def chainSub : List Nat → Bool
  | a :: b :: t => (a &&& b == a) && chainSub (b :: t)
  | _ => true

/-- A list of Booleans is non-decreasing (`false` before `true`). -/
def chain01 : List Bool → Bool
  | a :: b :: t => (!a || b) && chain01 (b :: t)
  | _ => true

/-- Every pair of a compare-exchange sequence addresses two distinct cells
below `n`, the lower one first. -/
def wellFormedNet (n : Nat) (net : List (Nat × Nat)) : Bool :=
  net.all (fun ij => decide (ij.1 < ij.2) && decide (ij.2 < n))

/-- The network of size `n` sorts every assignment of `n` Boolean inputs,
checked on all assignments at once through their truth tables. -/
def networkChecked (n : Nat) : Bool :=
  match network n with
  | some net => wellFormedNet n net && chainSub (runNet (· &&& ·) (· ||| ·) net (tables n))
  | none => false

/-! ## Auxiliary definitions for the partition proofs -/

/-- Invariant of the partition loop, relative to the list `l0` and prefix `p`
on entry and the pivot cell `lp`: the cells below `p` are untouched, the cells
from `p` up to `lo` are below the pivot and the cells from `hi` on are not. -/
structure PartInv (past : Int) (l0 : List Int) (p lp : Nat) (l : List Int) (lo hi : Nat) :
    Prop where
  len : l.length = l0.length
  perm : l.Perm l0
  plo : p ≤ lo
  lohi : lo ≤ hi
  hin : hi ≤ l0.length
  low : ∀ i, i < p → rd past l i = rd past l0 i
  lt : ∀ i, p ≤ i → i < lo → rd past l i < rd past l0 lp
  ge : ∀ i, hi ≤ i → i < l0.length → ¬ rd past l i < rd past l0 lp

/-- Bounds on a split of a list `l`: the split list is a rearrangement of `l`,
the excluded run `[lo, hi)` is non-empty and inside the range, and each child's
prefix is at most the child's length. -/
structure SplitOk (l : List Int) (s : Split) : Prop where
  perm : s.list.Perm l
  lohi : s.lo < s.hi
  hin : s.hi ≤ l.length
  leftPre_le : s.leftPre ≤ s.lo
  rightPre_le : s.rightPre ≤ l.length - s.hi

/-- Order facts of a split: the cells before `lo` are below the pivot, the
cells of `[lo, hi)` equal it, the cells from `hi` on are not below it, the cell
at `hi` (if any) is above it, and both handed-down prefixes are non-decreasing. -/
structure SplitOrdered (past : Int) (s : Split) : Prop where
  left_lt : ∀ i, i < s.lo → rd past s.list i < s.pivot past
  run_eq : ∀ i, s.lo ≤ i → i < s.hi → rd past s.list i = s.pivot past
  right_ge : ∀ i, s.hi ≤ i → i < s.list.length → s.pivot past ≤ rd past s.list i
  right_gt : s.hi < s.list.length → s.pivot past < rd past s.list s.hi
  left_asc : ∀ i j, i < j → j < s.leftPre → rd past s.list i ≤ rd past s.list j
  right_asc : ∀ i j, i < j → j < s.rightPre →
    rd past s.list (s.hi + i) ≤ rd past s.list (s.hi + j)

/-! ## The verifier `is_sorted` -/

/-- The inner loop `for (j = 0; j < stride && i + j < list.size(); ++j)` of
`is_sorted` on the row starting at `i`, carrying `prev` and accumulating
`row_ok`; the guard keeps `i + j` inside the list. -/
def sortedRow (list : List Int) (i : Nat) : Nat → Nat → Int → Bool → Bool
  | 0, _, _, row_ok => row_ok
  | fuel + 1, j, prev, row_ok =>
    if j < stride ∧ i + j < list.length then
      let p := rd prev list (i + j)
      let ok := !decide (p < prev)
      sortedRow list i fuel (j + 1) p (row_ok && ok)
    else row_ok

/-- The outer loop `for (i = 0; i < list.size(); i += stride)` of `is_sorted`:
each row starts with `auto prev = list[i]`. -/
def sortedRows (list : List Int) : Nat → Nat → Bool → Bool
  | 0, _, success => success
  | fuel + 1, i, success =>
    if i < list.length then
      let prev := rd 0 list i
      let row_ok := sortedRow list i stride 0 prev true
      sortedRows list fuel (i + stride) (if !row_ok then false else success)
    else success

/-- The function `is_sorted(list, prefix, header)`; its `prefix` and `header`
arguments only affect what is printed. -/
def is_sorted (list : List Int) : Bool :=
  sortedRows list list.length 0 true

/-! ## Instrumented loops -/

/-- The pairs `(i, j)` of the bootstrap loop, in order: the loop variable and
the index `j = randint(i, list.size())` drawn for it.  Same recursion as
`shuffle`. -/
def shuffleDraws (rnd : Nat → Nat) : Nat → Nat → Nat → List Int → List (Nat × Nat)
  | 0, _, _, _ => []
  | k + 1, i, pos, list =>
    let j := randint i list.length (rnd pos)
    (i, j) :: shuffleDraws rnd k (i + 1) (pos + 1) (swapAt list i j)

/-- The indices at which the scan `while (lo[0] < pivot && lo < hi) ++lo;` reads
`lo[0]`, in order.  Same recursion as `scanLo`; the condition is evaluated once
more when the loop stops, and it reads `lo[0]` before it tests `lo < hi`. -/
def scanLoReads (past : Int) (list : List Int) (lp hi : Nat) : Nat → Nat → List Nat
  | 0, lo => [lo]
  | fuel + 1, lo =>
    if rd past list lo < rd past list lp ∧ lo < hi then
      lo :: scanLoReads past list lp hi fuel (lo + 1)
    else [lo]

/-- The cells `[i, j)` of a list. -/
def slots (l : List Int) (i j : Nat) : List Int := (l.drop i).take (j - i)

/-! ## Compare-exchange networks -/

theorem ceAt_eq_cexAt (l : List Int) (i j : Nat) : ceAt l i j = cexAt stdMin stdMax l i j := by
  unfold ceAt cexAt ce
  cases l[i]? <;> cases l[j]? <;> rfl

theorem applyNetwork_eq_runNet (net : List (Nat × Nat)) (l : List Int) :
    applyNetwork net l = runNet stdMin stdMax net l := by
  simp only [applyNetwork, runNet, ceAt_eq_cexAt]

theorem map_cexAt {α β : Type} (f : α → β) (mn mx : α → α → α) (mn2 mx2 : β → β → β)
    (hmn : ∀ a b, f (mn a b) = mn2 (f a) (f b)) (hmx : ∀ a b, f (mx a b) = mx2 (f a) (f b))
    (l : List α) (i j : Nat) :
    (cexAt mn mx l i j).map f = cexAt mn2 mx2 (l.map f) i j := by
  unfold cexAt
  rw [List.getElem?_map, List.getElem?_map]
  cases l[i]? <;> cases l[j]? <;> simp [List.map_set, hmn, hmx]

theorem map_runNet {α β : Type} (f : α → β) (mn mx : α → α → α) (mn2 mx2 : β → β → β)
    (hmn : ∀ a b, f (mn a b) = mn2 (f a) (f b)) (hmx : ∀ a b, f (mx a b) = mx2 (f a) (f b))
    (net : List (Nat × Nat)) (l : List α) :
    (runNet mn mx net l).map f = runNet mn2 mx2 net (l.map f) := by
  induction net generalizing l with
  | nil => rfl
  | cons ij net ih =>
    simp only [runNet, List.foldl_cons] at ih ⊢
    rw [ih, map_cexAt f mn mx mn2 mx2 hmn hmx]

theorem length_cexAt {α : Type} (mn mx : α → α → α) (l : List α) (i j : Nat) :
    (cexAt mn mx l i j).length = l.length := by
  unfold cexAt
  cases l[i]? <;> cases l[j]? <;> simp

theorem length_runNet {α : Type} (mn mx : α → α → α) (net : List (Nat × Nat)) (l : List α) :
    (runNet mn mx net l).length = l.length := by
  induction net generalizing l with
  | nil => rfl
  | cons ij net ih =>
    simp only [runNet, List.foldl_cons] at ih ⊢
    rw [ih, length_cexAt]

theorem chain01_of_chainSub (x : Nat) (ws : List Nat) (h : chainSub ws = true) :
    chain01 (ws.map (fun w => w.testBit x)) = true := by
  induction ws with
  | nil => rfl
  | cons a t ih =>
    cases t with
    | nil => rfl
    | cons b t =>
      simp only [chainSub, Bool.and_eq_true, beq_iff_eq] at h
      simp only [List.map_cons, chain01, Bool.and_eq_true, Bool.or_eq_true,
        Bool.not_eq_true']
      refine ⟨?_, by simpa using ih h.2⟩
      have hb := Nat.testBit_and a b x
      rw [h.1] at hb
      cases ha : a.testBit x <;> simp_all

theorem tables_lt (n : Nat) : ∀ w ∈ tables n, w < 2 ^ (2 ^ n) := by
  induction n with
  | zero => simp [tables]
  | succ n ih =>
    intro w hw
    have hpow : 2 ^ (2 ^ (n + 1)) = 2 ^ (2 ^ n) * 2 ^ (2 ^ n) := by
      rw [← pow_add]; congr 1; omega
    have hpos : 0 < 2 ^ (2 ^ n) := Nat.two_pow_pos _
    simp only [tables, List.mem_cons, List.mem_map] at hw
    rcases hw with rfl | ⟨v, hv, rfl⟩
    · rw [Nat.shiftLeft_eq, hpow]
      exact Nat.mul_lt_mul_of_pos_right (Nat.sub_lt hpos (by decide)) hpos
    · have hvlt := ih v hv
      apply Nat.or_lt_two_pow
      · exact lt_of_lt_of_le hvlt
          (Nat.pow_le_pow_right (by decide) (Nat.pow_le_pow_right (by decide) (Nat.le_succ n)))
      · rw [Nat.shiftLeft_eq, hpow]
        exact Nat.mul_lt_mul_of_pos_right hvlt hpos

theorem tables_cover (n : Nat) (v : List Bool) (hv : v.length = n) :
    ∃ x, x < 2 ^ n ∧ (tables n).map (fun w => w.testBit x) = v := by
  induction n generalizing v with
  | zero =>
    refine ⟨0, by decide, ?_⟩
    simp [tables, List.length_eq_zero.mp hv]
  | succ n ih =>
    cases v with
    | nil => simp at hv
    | cons b v =>
      obtain ⟨x, hx, hxv⟩ := ih v (by simpa using hv)
      cases b with
      | false =>
        refine ⟨x, by omega, ?_⟩
        simp only [tables, List.map_cons, List.map_map]
        congr 1
        · simp [Nat.testBit_shiftLeft]; omega
        · rw [← hxv]
          apply List.map_congr_left
          intro w _
          simp [Nat.testBit_or, Nat.testBit_shiftLeft]
          omega
      | true =>
        refine ⟨x + 2 ^ n, by omega, ?_⟩
        simp only [tables, List.map_cons, List.map_map]
        congr 1
        · simp [Nat.testBit_shiftLeft, Nat.testBit_two_pow_sub_one, hx]
        · rw [← hxv]
          apply List.map_congr_left
          intro w hw
          have hlt : w < 2 ^ (x + 2 ^ n) :=
            lt_of_lt_of_le (tables_lt n w hw) (Nat.pow_le_pow_right (by decide) (by omega))
          simp [Nat.testBit_or, Nat.testBit_shiftLeft, Nat.testBit_lt_two_pow hlt]

theorem chain01_runNet_bool (n : Nat) (net : List (Nat × Nat))
    (hc : chainSub (runNet (· &&& ·) (· ||| ·) net (tables n)) = true)
    (v : List Bool) (hv : v.length = n) :
    chain01 (runNet (· && ·) (· || ·) net v) = true := by
  obtain ⟨x, _, hx⟩ := tables_cover n v hv
  have hmap := map_runNet (fun w : Nat => w.testBit x) (· &&& ·) (· ||| ·) (· && ·) (· || ·)
    (fun a b => Nat.testBit_and a b x) (fun a b => Nat.testBit_or a b x) net (tables n)
  rw [hx] at hmap
  rw [← hmap]
  exact chain01_of_chainSub x _ hc

theorem threshold_stdMin (t a b : Int) :
    decide (t < stdMin a b) = (decide (t < a) && decide (t < b)) := by
  unfold stdMin
  split <;> simp <;> omega

theorem threshold_stdMax (t a b : Int) :
    decide (t < stdMax a b) = (decide (t < a) || decide (t < b)) := by
  unfold stdMax
  split <;> simp <;> omega

theorem ascending_of_thresholds (l : List Int)
    (h : ∀ t : Int, chain01 (l.map (fun x => decide (t < x))) = true) : Ascending l := by
  unfold Ascending List.Sorted
  rw [← List.chain'_iff_pairwise]
  induction l with
  | nil => exact List.chain'_nil
  | cons a l ih =>
    cases l with
    | nil => exact List.chain'_singleton a
    | cons b l =>
      rw [List.chain'_cons]
      constructor
      · have hb := h b
        simp only [List.map_cons, chain01, Bool.and_eq_true, Bool.or_eq_true,
          Bool.not_eq_true', decide_eq_false_iff_not, decide_eq_true_eq] at hb
        omega
      · apply ih
        intro t
        have ht := h t
        simp only [List.map_cons, chain01, Bool.and_eq_true] at ht
        exact ht.2

theorem zero_one_principle (n : Nat) (net : List (Nat × Nat))
    (hc : chainSub (runNet (· &&& ·) (· ||| ·) net (tables n)) = true)
    (l : List Int) (hl : l.length = n) : Ascending (applyNetwork net l) := by
  apply ascending_of_thresholds
  intro t
  rw [applyNetwork_eq_runNet,
    map_runNet (fun x : Int => decide (t < x)) stdMin stdMax (· && ·) (· || ·)
      (threshold_stdMin t) (threshold_stdMax t)]
  exact chain01_runNet_bool n net hc _ (by simpa using hl)

theorem networkChecked_all : ∀ n, n ≤ 15 → networkChecked n = true := by
  decide!

/-! ## Exchanges are permutations -/

theorem perm_cons_set (x y : Int) (l : List Int) (j : Nat) (h : l[j]? = some y) :
    (y :: l.set j x).Perm (x :: l) := by
  induction l generalizing j with
  | nil => simp at h
  | cons a l ih =>
    cases j with
    | zero =>
      simp only [List.getElem?_cons_zero, Option.some.injEq] at h
      subst h
      simpa using List.Perm.swap x a l
    | succ j =>
      simp only [List.getElem?_cons_succ] at h
      simp only [List.set_cons_succ]
      exact ((List.Perm.swap a y _).trans ((ih j h).cons a)).trans (List.Perm.swap x a l)

theorem swapAt_perm (l : List Int) (i j : Nat) : (swapAt l i j).Perm l := by
  induction l generalizing i j with
  | nil => simp [swapAt]
  | cons x l ih =>
    unfold swapAt
    cases i with
    | zero =>
      cases j with
      | zero => simp
      | succ j =>
        simp only [List.getElem?_cons_zero, List.getElem?_cons_succ]
        cases h : l[j]? with
        | none => simp
        | some b => simpa using perm_cons_set x b l j h
    | succ i =>
      cases j with
      | zero =>
        simp only [List.getElem?_cons_zero, List.getElem?_cons_succ]
        cases h : l[i]? with
        | none => simp
        | some a => simpa using perm_cons_set x a l i h
      | succ j =>
        have := ih i j
        unfold swapAt at this
        simp only [List.getElem?_cons_succ]
        cases hi : l[i]? <;> cases hj : l[j]? <;> simp_all

theorem length_swapAt (l : List Int) (i j : Nat) : (swapAt l i j).length = l.length :=
  (swapAt_perm l i j).length_eq

theorem lt_length_of_getElem? {l : List Int} {i : Nat} {a : Int} (h : l[i]? = some a) :
    i < l.length := by
  by_contra hc
  rw [List.getElem?_eq_none (by omega)] at h
  cases h

theorem set_getElem?_self (l : List Int) (i : Nat) (a : Int) (h : l[i]? = some a) :
    l.set i a = l := by
  apply List.ext_getElem?
  intro k
  rw [List.getElem?_set]
  split
  · subst_vars
    simp [lt_length_of_getElem? h, h]
  · rfl

theorem ceAt_eq_swapAt (l : List Int) (i j : Nat) :
    ceAt l i j = l ∨ ceAt l i j = swapAt l i j := by
  unfold ceAt swapAt ce stdMin stdMax
  cases hi : l[i]? with
  | none => simp
  | some a =>
    cases hj : l[j]? with
    | none => simp
    | some b =>
      simp only
      by_cases hba : b < a
      · right
        have : ¬ a < b := by omega
        simp [hba, this]
      · left
        by_cases hab : a < b
        · simp only [hba, hab, if_true, if_false, set_getElem?_self l i a hi,
            set_getElem?_self l j b hj]
        · have : a = b := by omega
          subst this
          simp only [hba, if_false, set_getElem?_self l i a hi, set_getElem?_self l j a hj]

theorem ceAt_perm (l : List Int) (i j : Nat) : (ceAt l i j).Perm l := by
  rcases ceAt_eq_swapAt l i j with h | h
  · rw [h]
  · rw [h]; exact swapAt_perm l i j

theorem applyNetwork_perm (net : List (Nat × Nat)) (l : List Int) :
    (applyNetwork net l).Perm l := by
  induction net generalizing l with
  | nil => exact List.Perm.refl _
  | cons ij net ih =>
    simp only [applyNetwork, List.foldl_cons] at ih ⊢
    exact (ih _).trans (ceAt_perm l ij.1 ij.2)

/-! ## The network library sorts -/

theorem specialcase_small (list : List Int) (pre : Nat) (hn : list.length ≤ 15)
    (hp : pre ≠ list.length) :
    ∃ net, network list.length = some net ∧
      specialcase list pre = ⟨true, applyNetwork net list, net.length⟩ ∧
      Ascending (applyNetwork net list) := by
  have hc := networkChecked_all list.length hn
  unfold networkChecked at hc
  cases hnet : network list.length with
  | none => simp [hnet] at hc
  | some net =>
    simp only [hnet, Bool.and_eq_true] at hc
    refine ⟨net, rfl, ?_, zero_one_principle list.length net hc.2 list rfl⟩
    simp [specialcase, hp, hnet]

/-- C4: for every list of at most 15 elements, `specialcase` called with a
prefix different from the length returns true and leaves the list in
non-decreasing order as a permutation of its input; `[5,3,3,1,4,3,2]` becomes
`[1,2,3,3,3,4,5]`. -/
theorem specialcase_sorts (list : List Int) (pre : Nat) (hn : list.length ≤ 15)
    (hp : pre ≠ list.length) :
    (specialcase list pre).ok = true ∧ Ascending (specialcase list pre).list ∧
      (specialcase list pre).list.Perm list ∧
      (specialcase [5, 3, 3, 1, 4, 3, 2] 0).list = [1, 2, 3, 3, 3, 4, 5] := by
  obtain ⟨net, _, hsc, hasc⟩ := specialcase_small list pre hn hp
  rw [hsc]
  exact ⟨rfl, hasc, applyNetwork_perm net list, by decide⟩

theorem specialcase_sorts_witness :
    (specialcase [9, -2, 7, 7, 0] 2).ok = true ∧ Ascending (specialcase [9, -2, 7, 7, 0] 2).list ∧
      (specialcase [9, -2, 7, 7, 0] 2).list.Perm [9, -2, 7, 7, 0] ∧
      (specialcase [5, 3, 3, 1, 4, 3, 2] 0).list = [1, 2, 3, 3, 3, 4, 5] :=
  specialcase_sorts [9, -2, 7, 7, 0] 2 (by decide) (by decide)

/-! ## Reads and swaps -/

theorem rd_of_lt (past : Int) (l : List Int) (i : Nat) (h : i < l.length) :
    l[i]? = some (rd past l i) := by
  simp [rd, List.getElem?_eq_getElem h]

theorem rd_eq_of_getElem? (past : Int) {l l2 : List Int} {i k : Nat} (h : l[i]? = l2[k]?) :
    rd past l i = rd past l2 k := by
  simp [rd, h]

theorem getElem?_swapAt (l : List Int) (i j k : Nat) (hi : i < l.length) (hj : j < l.length) :
    (swapAt l i j)[k]? = if k = j then l[i]? else if k = i then l[j]? else l[k]? := by
  unfold swapAt
  rw [List.getElem?_eq_getElem hi, List.getElem?_eq_getElem hj]
  simp only [List.getElem?_set, List.length_set]
  by_cases h1 : j = k
  · subst h1; simp [hj]
  · by_cases h2 : i = k
    · subst h2; simp [h1, hi, Ne.symm h1]
    · simp [h1, h2, Ne.symm h1, Ne.symm h2]

theorem rd_swapAt (past : Int) (l : List Int) (i j k : Nat) (hi : i < l.length)
    (hj : j < l.length) :
    rd past (swapAt l i j) k =
      if k = j then rd past l i else if k = i then rd past l j else rd past l k := by
  unfold rd
  rw [getElem?_swapAt l i j k hi hj]
  split
  · rfl
  · split <;> rfl

theorem rd_swapAt_of_ne (past : Int) (l : List Int) (i j k : Nat) (hi : i < l.length)
    (hj : j < l.length) (hki : k ≠ i) (hkj : k ≠ j) :
    rd past (swapAt l i j) k = rd past l k := by
  rw [rd_swapAt past l i j k hi hj, if_neg hkj, if_neg hki]

theorem rd_take (past : Int) (l : List Int) (n i : Nat) (h : i < n) :
    rd past (l.take n) i = rd past l i := by
  simp [rd, List.getElem?_take_of_lt h]

theorem rd_drop (past : Int) (l : List Int) (n i : Nat) :
    rd past (l.drop n) i = rd past l (n + i) := by
  simp [rd, List.getElem?_drop]

theorem mem_take_rd (past : Int) (l : List Int) (n : Nat) (x : Int) (hx : x ∈ l.take n) :
    ∃ i, i < n ∧ i < l.length ∧ rd past l i = x := by
  obtain ⟨i, hi, rfl⟩ := List.mem_iff_getElem.1 hx
  simp only [List.length_take, lt_min_iff] at hi
  refine ⟨i, hi.1, hi.2, ?_⟩
  simp [rd, List.getElem?_eq_getElem hi.2, List.getElem_take]

theorem mem_drop_rd (past : Int) (l : List Int) (n : Nat) (x : Int) (hx : x ∈ l.drop n) :
    ∃ i, n ≤ i ∧ i < l.length ∧ rd past l i = x := by
  obtain ⟨i, hi, rfl⟩ := List.mem_iff_getElem.1 hx
  simp only [List.length_drop] at hi
  refine ⟨n + i, by omega, by omega, ?_⟩
  have : n + i < l.length := by omega
  simp [rd, List.getElem?_eq_getElem this, List.getElem_drop]

/-- Index form of a sorted prefix: the first `p` cells are non-decreasing. -/
theorem ascending_take_iff (past : Int) (l : List Int) (p : Nat) (hp : p ≤ l.length) :
    Ascending (l.take p) ↔ ∀ i j, i < j → j < p → rd past l i ≤ rd past l j := by
  unfold Ascending List.Sorted
  rw [List.pairwise_iff_getElem]
  constructor
  · intro h i j hij hj
    have h1 : i < (l.take p).length := by simp; omega
    have h2 : j < (l.take p).length := by simp; omega
    have := h i j h1 h2 hij
    simp only [List.getElem_take] at this
    have hi' : i < l.length := by omega
    have hj' : j < l.length := by omega
    simpa [rd, List.getElem?_eq_getElem hi', List.getElem?_eq_getElem hj'] using this
  · intro h i j h1 h2 hij
    simp only [List.length_take, lt_min_iff] at h1 h2
    have := h i j hij h2.1
    simp only [List.getElem_take]
    simpa [rd, List.getElem?_eq_getElem h1.2, List.getElem?_eq_getElem h2.2] using this

/-! ## Bootstrap step -/

theorem shuffle_perm (rnd : Nat → Nat) (k i pos : Nat) (l : List Int) :
    (shuffle rnd k i pos l).1.Perm l := by
  induction k generalizing i pos l with
  | zero => exact List.Perm.refl _
  | succ k ih =>
    simp only [shuffle]
    exact (ih _ _ _).trans (swapAt_perm l i _)

theorem shuffle_pos (rnd : Nat → Nat) (k i pos : Nat) (l : List Int) :
    (shuffle rnd k i pos l).2 = pos + k := by
  induction k generalizing i pos l with
  | zero => rfl
  | succ k ih =>
    simp only [shuffle]
    rw [ih]; omega

/-- Facts about the state after the bootstrap step of a call that `specialcase`
did not handle (at least 16 elements, prefix below the length). -/
theorem bootstrap_spec (rnd : Nat → Nat) (pos : Nat) (l : List Int) (p : Nat)
    (hn : 16 ≤ l.length) (hp : p < l.length) :
    ∃ b, bootstrap rnd pos l p = .ok b ∧ b.list.Perm l ∧ 3 ≤ b.pre ∧ b.pre < l.length ∧
      (Ascending (l.take p) → Ascending (b.list.take b.pre)) ∧
      (p < 3 → b.pre = 15 ∧ b.pos = pos + (15 - p)) ∧ (3 ≤ p → b = ⟨l, p, pos, 0⟩) := by
  unfold bootstrap
  by_cases h3 : p < min_prefix
  · have hmin : min init_prefix l.length = 15 := by simp [ init_prefix]; omega
    have h3' : p < 3 := h3
    rw [if_pos h3, hmin]
    have hperm := shuffle_perm rnd (15 - p) p pos l
    have hlen : ((shuffle rnd (15 - p) p pos l).1.take 15).length = 15 := by
      rw [List.length_take, hperm.length_eq]; omega
    obtain ⟨net, _, hsc, hasc⟩ :=
      specialcase_small ((shuffle rnd (15 - p) p pos l).1.take 15) p (by omega) (by omega)
    have hnlen : (applyNetwork net ((shuffle rnd (15 - p) p pos l).1.take 15)).length = 15 := by
      rw [(applyNetwork_perm net _).length_eq, hlen]
    simp only [hsc]
    refine ⟨_, rfl, ?_, by simp, by simpa using hn, ?_, ?_, by omega⟩
    · refine List.Perm.trans ?_ hperm
      conv => rhs; rw [← List.take_append_drop 15 (shuffle rnd (15 - p) p pos l).1]
      exact (applyNetwork_perm net _).append_right _
    · intro _
      rw [List.take_left' hnlen]
      exact hasc
    · intro _
      exact ⟨rfl, shuffle_pos rnd (15 - p) p pos l⟩
  · have h3' : 3 ≤ p := Nat.le_of_not_lt h3
    rw [if_neg h3]
    exact ⟨_, rfl, List.Perm.refl _, h3', hp, id, by omega, fun _ => rfl⟩

/-! ## Pivot selection -/

theorem rewind_le (past : Int) (l : List Int) (k : Nat) : rewind past l k ≤ k := by
  induction k with
  | zero => simp [rewind]
  | succ k ih =>
    simp only [rewind]
    split
    · omega
    · omega

/-- Below the rewound index every cell of a sorted prefix is strictly less
than the cell at the index. -/
theorem rewind_lt (past : Int) (l : List Int) (p k : Nat) (hk : k < p)
    (hasc : ∀ i j, i < j → j < p → rd past l i ≤ rd past l j) :
    ∀ i, i < rewind past l k → rd past l i < rd past l (rewind past l k) := by
  induction k with
  | zero => intro i hi; simp [rewind] at hi
  | succ k ih =>
    intro i hi
    simp only [rewind] at hi ⊢
    split
    · rename_i hc
      rw [if_pos hc] at hi
      exact ih (by omega) i hi
    · rename_i hc
      rw [if_neg hc] at hi
      have hlt : rd past l k < rd past l (k + 1) := by
        by_contra h; exact hc h
      by_cases hik : i = k
      · rw [hik]; exact hlt
      · have := hasc i k (by omega) (by omega)
        omega

/-! ## Partition loop -/

theorem scanLo_spec (past : Int) (l : List Int) (lp hi : Nat) (fuel lo : Nat)
    (hle : lo ≤ hi) (hf : hi - lo ≤ fuel) :
    lo ≤ scanLo past l lp hi fuel lo ∧ scanLo past l lp hi fuel lo ≤ hi ∧
      (∀ i, lo ≤ i → i < scanLo past l lp hi fuel lo → rd past l i < rd past l lp) ∧
      (scanLo past l lp hi fuel lo < hi →
        ¬ rd past l (scanLo past l lp hi fuel lo) < rd past l lp) := by
  induction fuel generalizing lo with
  | zero =>
    have : lo = hi := by omega
    subst this
    simp only [scanLo]
    exact ⟨le_refl _, le_refl _, fun i h1 h2 => by omega, fun h => by omega⟩
  | succ fuel ih =>
    simp only [scanLo]
    split
    · rename_i hc
      obtain ⟨h1, h2, h3, h4⟩ := ih (lo + 1) (by omega) (by omega)
      refine ⟨by omega, h2, ?_, h4⟩
      intro i hi1 hi2
      by_cases hi : i = lo
      · rw [hi]; exact hc.1
      · exact h3 i (by omega) hi2
    · rename_i hc
      refine ⟨le_refl _, hle, fun i h1 h2 => by omega, ?_⟩
      intro hlt hrd
      exact hc ⟨hrd, hlt⟩

theorem scanHi_spec (past : Int) (l : List Int) (lp lo : Nat) (hi : Nat) (hle : lo ≤ hi) :
    lo ≤ scanHi past l lp lo hi ∧ scanHi past l lp lo hi ≤ hi ∧
      (∀ i, scanHi past l lp lo hi ≤ i → i < hi → ¬ rd past l i < rd past l lp) ∧
      (lo < scanHi past l lp lo hi →
        rd past l (scanHi past l lp lo hi - 1) < rd past l lp) := by
  induction hi with
  | zero =>
    simp only [scanHi]
    exact ⟨hle, le_refl _, fun i h1 h2 => by omega, fun h => by omega⟩
  | succ h ih =>
    simp only [scanHi]
    split
    · rename_i hc
      obtain ⟨h1, h2, h3, h4⟩ := ih (by omega)
      refine ⟨h1, by omega, ?_, h4⟩
      intro i hi1 hi2
      by_cases hi : i = h
      · rw [hi]; exact hc.1
      · exact h3 i hi1 (by omega)
    · rename_i hc
      refine ⟨hle, le_refl _, fun i h1 h2 => by omega, ?_⟩
      intro hlt
      by_contra hrd
      exact hc ⟨by simpa using hrd, hlt⟩

theorem partitionLoop_spec (past : Int) (l0 : List Int) (p lp : Nat) (hlp : lp < p)
    (fuel : Nat) (l : List Int) (lo hi ops : Nat) (inv : PartInv past l0 p lp l lo hi)
    (hf : hi - lo < fuel ∨ (hi - lo < fuel + 1 ∧ lo < hi ∧ rd past l lo < rd past l0 lp)) :
    ∃ q, partitionLoop past lp fuel l lo hi ops = some q ∧
      PartInv past l0 p lp q.list q.lo q.hi ∧ q.lo = q.hi := by
  induction fuel generalizing l lo hi ops with
  | zero => omega
  | succ fuel ih =>
    have hpv : rd past l lp = rd past l0 lp := inv.low lp hlp
    obtain ⟨a1, a2, a3, a4⟩ := scanLo_spec past l lp hi (hi - lo) lo inv.lohi (le_refl _)
    obtain ⟨b1, b2, b3, b4⟩ :=
      scanHi_spec past l lp (scanLo past l lp hi (hi - lo) lo) hi a2
    simp only [partitionLoop]
    generalize scanLo past l lp hi (hi - lo) lo = lo1 at a1 a2 a3 a4 b1 b2 b3 b4 ⊢
    generalize scanHi past l lp lo1 hi = hi1 at b1 b2 b3 b4 ⊢
    rw [hpv] at a3 a4 b3 b4
    have hhi := inv.hin
    have hlen := inv.len
    have hplo := inv.plo
    by_cases hc : lo1 < hi1
    · rw [if_neg (not_not.2 hc)]
      have hge : ¬ rd past l lo1 < rd past l0 lp := a4 (by omega)
      have hlt : rd past l (hi1 - 1) < rd past l0 lp := b4 hc
      have hi1' : lo1 < l.length := by omega
      have hi2' : hi1 - 1 < l.length := by omega
      have hmove : lo < lo1 ∨ hi - lo < fuel + 1 := by
        rcases hf with h | ⟨_, h2, h3⟩
        · right; exact h
        · left
          by_contra hcon
          have : lo1 = lo := by omega
          rw [this] at hge
          exact hge h3
      apply ih
      · refine ⟨by rw [length_swapAt]; exact hlen, (swapAt_perm _ _ _).trans inv.perm,
          by omega, by omega, by omega, ?_, ?_, ?_⟩
        · intro i hi
          rw [rd_swapAt_of_ne past l _ _ i hi1' hi2' (by omega) (by omega)]
          exact inv.low i hi
        · intro i h1 h2
          rw [rd_swapAt_of_ne past l _ _ i hi1' hi2' (by omega) (by omega)]
          by_cases h3 : i < lo
          · exact inv.lt i h1 h3
          · exact a3 i (by omega) h2
        · intro i h1 h2
          rw [rd_swapAt_of_ne past l _ _ i hi1' hi2' (by omega) (by omega)]
          by_cases h3 : hi ≤ i
          · exact inv.ge i h3 h2
          · exact b3 i h1 (by omega)
      · right
        refine ⟨by omega, hc, ?_⟩
        rw [rd_swapAt past l _ _ lo1 hi1' hi2']
        have hne : lo1 ≠ hi1 - 1 := by
          intro h; rw [← h] at hlt; exact hge hlt
        rw [if_neg hne, if_pos rfl]
        exact hlt
    · rw [if_pos hc]
      refine ⟨⟨l, lo1, hi1, ops⟩, rfl, ?_, ?_⟩
      · show PartInv past l0 p lp l lo1 hi1
        refine ⟨hlen, inv.perm, by omega, by omega, by omega, inv.low, ?_, ?_⟩
        · intro i h1 h2
          by_cases h3 : i < lo
          · exact inv.lt i h1 h3
          · exact a3 i (by omega) h2
        · intro i h1 h2
          by_cases h3 : hi ≤ i
          · exact inv.ge i h3 h2
          · exact b3 i h1 (by omega)
      · show lo1 = hi1
        omega

/-! ## Relocation of the upper part of the prefix -/

/-- Effect of `k` relocation swaps started at `lo = b`, `unsorted = p`: the
cells below `p - k` and from `b` on are untouched, the cells `[b - k, b)` hold
the former cells `[p - k, p)` in order, and each cell of `[p - k, b - k)` holds
a former cell of `[p, b)`. -/
theorem relocate_spec (past : Int) (k : Nat) (l : List Int) (b p : Nat) (hk : k ≤ p)
    (hpb : p ≤ b) (hb : b ≤ l.length) :
    (relocate k l b p).2.1 = b - k ∧ (relocate k l b p).2.2 = p - k ∧
      (relocate k l b p).1.Perm l ∧
      (∀ i, i < p - k → rd past (relocate k l b p).1 i = rd past l i) ∧
      (∀ i, b ≤ i → rd past (relocate k l b p).1 i = rd past l i) ∧
      (∀ i, b - k ≤ i → i < b → rd past (relocate k l b p).1 i = rd past l (i - (b - p))) ∧
      (∀ i, p - k ≤ i → i < b - k →
        ∃ j, p ≤ j ∧ j < b ∧ rd past (relocate k l b p).1 i = rd past l j) := by
  induction k generalizing l b p with
  | zero =>
    simp only [relocate]
    refine ⟨rfl, rfl, List.Perm.refl _, fun _ _ => trivial, fun _ _ => trivial, ?_, ?_⟩
    · intro i h1 h2; omega
    · intro i h1 h2; exact ⟨i, h1, h2, rfl⟩
  | succ k ih =>
    simp only [relocate]
    have hb1 : b - 1 < l.length := by omega
    have hp1 : p - 1 < l.length := by omega
    obtain ⟨c1, c2, c3, c4, c5, c6, c7⟩ :=
      ih (swapAt l (b - 1) (p - 1)) (b - 1) (p - 1) (by omega) (by omega)
        (by rw [length_swapAt]; omega)
    refine ⟨by omega, by omega, c3.trans (swapAt_perm _ _ _), ?_, ?_, ?_, ?_⟩
    · intro i hi
      rw [c4 i (by omega), rd_swapAt_of_ne past l _ _ i hb1 hp1 (by omega) (by omega)]
    · intro i hi
      rw [c5 i (by omega), rd_swapAt_of_ne past l _ _ i hb1 hp1 (by omega) (by omega)]
    · intro i h1 h2
      by_cases hi : i = b - 1
      · rw [c5 i (by omega), rd_swapAt past l _ _ i hb1 hp1]
        have hidx : i - (b - p) = p - 1 := by omega
        rw [hidx]
        by_cases hbp : i = p - 1
        · rw [if_pos hbp]
          have : b - 1 = p - 1 := by omega
          rw [this]
        · rw [if_neg hbp, if_pos hi]
      · rw [c6 i (by omega) (by omega)]
        have hidx : i - (b - 1 - (p - 1)) = i - (b - p) := by omega
        rw [hidx, rd_swapAt_of_ne past l _ _ _ hb1 hp1 (by omega) (by omega)]
    · intro i h1 h2
      obtain ⟨j, j1, j2, j3⟩ := c7 i (by omega) (by omega)
      by_cases hj : j = p - 1
      · refine ⟨b - 1, by omega, by omega, ?_⟩
        rw [j3, rd_swapAt past l _ _ j hb1 hp1, if_pos hj]
      · refine ⟨j, by omega, by omega, ?_⟩
        rw [j3, rd_swapAt_of_ne past l _ _ j hb1 hp1 (by omega) hj]

/-! ## Culling the pivot run -/

theorem cull_spec (past : Int) (l : List Int) (lo : Nat) (fuel hi : Nat)
    (hle : hi ≤ l.length) (hf : l.length - hi ≤ fuel) :
    hi ≤ cull past l lo fuel hi ∧ cull past l lo fuel hi ≤ l.length ∧
      (∀ i, hi ≤ i → i < cull past l lo fuel hi → ¬ rd past l lo < rd past l i) ∧
      (cull past l lo fuel hi < l.length →
        rd past l lo < rd past l (cull past l lo fuel hi)) := by
  induction fuel generalizing hi with
  | zero =>
    simp only [cull]
    exact ⟨le_refl _, hle, fun i h1 h2 => by omega, fun h => by omega⟩
  | succ fuel ih =>
    simp only [cull]
    split
    · rename_i hc
      obtain ⟨h1, h2, h3, h4⟩ := ih (hi + 1) (by omega) (by omega)
      refine ⟨by omega, h2, ?_, h4⟩
      intro i hi1 hi2
      by_cases hi' : i = hi
      · rw [hi']; exact hc.2
      · exact h3 i (by omega) hi2
    · rename_i hc
      refine ⟨le_refl _, hle, fun i h1 h2 => by omega, ?_⟩
      intro hlt
      by_contra hrd
      exact hc ⟨hlt, hrd⟩

/-! ## The split of a partitioning call -/

theorem split_eq (rnd : Nat → Nat) (past : Int) (pos : Nat) (l : List Int) (p : Nat)
    (b : Seeded) (q : Parted) (lp r lo hi : Nat) (m : List Int × Nat × Nat)
    (hb : bootstrap rnd pos l p = .ok b) (hlp : lp = rewind past b.list (b.pre / 2))
    (hq : partitionLoop past lp (b.list.length + 1) b.list b.pre b.list.length 0 = some q)
    (hr : r = b.pre - lp) (hm : m = relocate r q.list q.lo b.pre) (hlo : lo = m.2.1)
    (hhi : hi = cull past m.1 lo (m.1.length - (lo + 1)) (lo + 1)) :
    split rnd past pos l p = .ok
      ⟨m.1, lo, hi, lp, if hi < lo + r then (lo + r) - hi else 0, b.pos, b.ops + q.ops + r⟩ := by
  subst hlp hr hm hlo hhi
  simp only [split, hb, hq]

/-- What a call that `specialcase` did not handle has established when it forms
its two children. -/
theorem split_spec (rnd : Nat → Nat) (past : Int) (pos : Nat) (l : List Int) (p : Nat)
    (hn : 16 ≤ l.length) (hp : p < l.length) :
    ∃ s, split rnd past pos l p = .ok s ∧ SplitOk l s ∧
      (Ascending (l.take p) → SplitOrdered past s) := by
  obtain ⟨b, hb, hbperm, hb3, hblt, hbasc, -, -⟩ := bootstrap_spec rnd pos l p hn hp
  have hblen : b.list.length = l.length := hbperm.length_eq
  have hlple := rewind_le past b.list (b.pre / 2)
  generalize hlp : rewind past b.list (b.pre / 2) = lp at hlple
  have hlplt : lp < b.pre := by omega
  have inv0 : PartInv past b.list b.pre lp b.list b.pre b.list.length :=
    ⟨rfl, List.Perm.refl _, le_refl _, by omega, le_refl _, fun _ _ => rfl,
      fun i h1 h2 => by omega, fun i h1 h2 => by omega⟩
  obtain ⟨q, hq, qinv, qeq⟩ := partitionLoop_spec past b.list b.pre lp hlplt
    (b.list.length + 1) b.list b.pre b.list.length 0 inv0 (Or.inl (by omega))
  have hqlen := qinv.len
  have hqplo := qinv.plo
  have hqhin := qinv.hin
  obtain ⟨m1, m2, m3, m4, m5, m6, m7⟩ := relocate_spec past (b.pre - lp) q.list q.lo b.pre
    (by omega) hqplo (by omega)
  generalize hm : relocate (b.pre - lp) q.list q.lo b.pre = m at m1 m2 m3 m4 m5 m6 m7
  have hmlen : m.1.length = l.length := by rw [m3.length_eq, hqlen, hblen]
  obtain ⟨c1, c2, c3, c4⟩ := cull_spec past m.1 (q.lo - (b.pre - lp))
    (m.1.length - (q.lo - (b.pre - lp) + 1)) (q.lo - (b.pre - lp) + 1) (by omega) (le_refl _)
  generalize hhi : cull past m.1 (q.lo - (b.pre - lp))
    (m.1.length - (q.lo - (b.pre - lp) + 1)) (q.lo - (b.pre - lp) + 1) = hi at c1 c2 c3 c4
  have heq := split_eq rnd past pos l p b q lp (b.pre - lp) (q.lo - (b.pre - lp)) hi m hb
    hlp.symm hq rfl hm.symm m1.symm hhi.symm
  refine ⟨_, heq, ?_, ?_⟩
  · refine ⟨(m3.trans qinv.perm).trans hbperm, ?_, ?_, ?_, ?_⟩
    · show q.lo - (b.pre - lp) < hi
      omega
    · show hi ≤ l.length
      omega
    · show lp ≤ q.lo - (b.pre - lp)
      omega
    · show (if hi < q.lo - (b.pre - lp) + (b.pre - lp)
        then q.lo - (b.pre - lp) + (b.pre - lp) - hi else 0) ≤ l.length - hi
      split <;> omega
  · intro hasc
    have hA := (ascending_take_iff past b.list b.pre (by omega)).1 (hbasc hasc)
    have hlow := qinv.low
    have hpiv : rd past m.1 (q.lo - (b.pre - lp)) = rd past b.list lp := by
      rw [m6 _ (le_refl _) (by omega)]
      have : q.lo - (b.pre - lp) - (q.lo - b.pre) = lp := by omega
      rw [this, hlow lp hlplt]
    have hrew := rewind_lt past b.list b.pre (b.pre / 2) (by omega) hA
    rw [hlp] at hrew
    have hblock : ∀ i, q.lo - (b.pre - lp) ≤ i → i < q.lo →
        rd past m.1 i = rd past b.list (i - (q.lo - b.pre)) := by
      intro i h1 h2
      rw [m6 i h1 h2, hlow _ (by omega)]
    have hge : ∀ i, q.lo - (b.pre - lp) ≤ i → i < l.length →
        rd past b.list lp ≤ rd past m.1 i := by
      intro i h1 h2
      by_cases h3 : i < q.lo
      · rw [hblock i h1 h3]
        by_cases h4 : i - (q.lo - b.pre) = lp
        · rw [h4]
        · exact hA lp _ (by omega) (by omega)
      · rw [m5 i (by omega)]
        have := qinv.ge i (by omega) (by omega)
        omega
    refine ⟨?_, ?_, ?_, ?_, ?_, ?_⟩
    · show ∀ i, i < q.lo - (b.pre - lp) → rd past m.1 i < rd past m.1 (q.lo - (b.pre - lp))
      intro i hi
      rw [hpiv]
      by_cases h1 : i < lp
      · rw [m4 i (by omega), hlow i (by omega)]
        exact hrew i h1
      · obtain ⟨j, j1, j2, j3⟩ := m7 i (by omega) hi
        rw [j3]
        exact qinv.lt j j1 j2
    · show ∀ i, q.lo - (b.pre - lp) ≤ i → i < hi →
        rd past m.1 i = rd past m.1 (q.lo - (b.pre - lp))
      intro i h1 h2
      by_cases h3 : i = q.lo - (b.pre - lp)
      · rw [h3]
      · have hle := c3 i (by omega) h2
        have hge' := hge i h1 (by omega)
        rw [hpiv] at hle ⊢
        omega
    · show ∀ i, hi ≤ i → i < m.1.length →
        rd past m.1 (q.lo - (b.pre - lp)) ≤ rd past m.1 i
      intro i h1 h2
      rw [hpiv]
      exact hge i (by omega) (by omega)
    · show hi < m.1.length → rd past m.1 (q.lo - (b.pre - lp)) < rd past m.1 hi
      exact c4
    · show ∀ i j, i < j → j < lp → rd past m.1 i ≤ rd past m.1 j
      intro i j h1 h2
      rw [m4 i (by omega), m4 j (by omega), hlow i (by omega), hlow j (by omega)]
      exact hA i j h1 (by omega)
    · show ∀ i j, i < j → j < (if hi < q.lo - (b.pre - lp) + (b.pre - lp)
        then q.lo - (b.pre - lp) + (b.pre - lp) - hi else 0) →
        rd past m.1 (hi + i) ≤ rd past m.1 (hi + j)
      intro i j h1 h2
      split at h2
      · rw [hblock (hi + i) (by omega) (by omega), hblock (hi + j) (by omega) (by omega)]
        exact hA _ _ (by omega) (by omega)
      · omega

theorem network_none (n : Nat) (h : 16 ≤ n) : network n = none := by
  obtain ⟨k, rfl⟩ := Nat.exists_eq_add_of_le h
  rw [Nat.add_comm]
  rfl

theorem specialcase_large (l : List Int) (p : Nat) (hn : 16 ≤ l.length) (hp : p ≠ l.length) :
    specialcase l p = ⟨false, l, 0⟩ := by
  simp [specialcase, hp, network_none l.length hn]

theorem specialcase_full (l : List Int) : specialcase l l.length = ⟨true, l, 0⟩ := by
  simp [specialcase]

theorem split_parts (s : Split) (h : s.lo ≤ s.hi) : s.left ++ s.run ++ s.right = s.list := by
  unfold Split.left Split.run Split.right
  have : s.list.drop s.hi = (s.list.drop s.lo).drop (s.hi - s.lo) := by
    rw [List.drop_drop]; congr 1; omega
  rw [this, List.append_assoc, List.take_append_drop, List.take_append_drop]

theorem split_left_lt (past : Int) (s : Split) (ho : SplitOrdered past s) :
    ∀ x ∈ s.left, x < s.pivot past := by
  intro x hx
  obtain ⟨i, h1, _, rfl⟩ := mem_take_rd past s.list s.lo x hx
  exact ho.left_lt i h1

theorem split_run_eq (past : Int) (s : Split) (ho : SplitOrdered past s) :
    ∀ x ∈ s.run, x = s.pivot past := by
  intro x hx
  obtain ⟨i, h1, _, rfl⟩ := mem_take_rd past (s.list.drop s.lo) (s.hi - s.lo) x hx
  rw [rd_drop]
  exact ho.run_eq _ (by omega) (by omega)

theorem split_right_ge (past : Int) (s : Split) (ho : SplitOrdered past s) :
    ∀ x ∈ s.right, s.pivot past ≤ x := by
  intro x hx
  obtain ⟨i, h1, h2, rfl⟩ := mem_drop_rd past s.list s.hi x hx
  exact ho.right_ge i h1 h2

theorem split_left_length (l : List Int) (s : Split) (hk : SplitOk l s) :
    s.left.length = s.lo := by
  have := hk.perm.length_eq
  have := hk.lohi
  have := hk.hin
  simp only [Split.left, List.length_take]
  omega

theorem split_right_length (l : List Int) (s : Split) (hk : SplitOk l s) :
    s.right.length = l.length - s.hi := by
  simp only [Split.right, List.length_drop, hk.perm.length_eq]

theorem split_left_asc (past : Int) (l : List Int) (s : Split) (hk : SplitOk l s)
    (ho : SplitOrdered past s) : Ascending (s.left.take s.leftPre) := by
  rw [ascending_take_iff past s.left s.leftPre
    (by rw [split_left_length l s hk]; exact hk.leftPre_le)]
  intro i j h1 h2
  have := hk.leftPre_le
  rw [Split.left, rd_take past s.list s.lo i (by omega), rd_take past s.list s.lo j (by omega)]
  exact ho.left_asc i j h1 h2

theorem split_right_asc (past : Int) (l : List Int) (s : Split) (hk : SplitOk l s)
    (ho : SplitOrdered past s) : Ascending (s.right.take s.rightPre) := by
  rw [ascending_take_iff past s.right s.rightPre
    (by rw [split_right_length l s hk]; exact hk.rightPre_le)]
  intro i j h1 h2
  rw [Split.right, rd_drop, rd_drop]
  exact ho.right_asc i j h1 h2

/-- Main result on `sort`: with fuel above the length and a prefix within the
range, the call completes, the list it leaves is a rearrangement of the input,
and it is non-decreasing when the inherited prefix was. -/
theorem sort_spec (rnd : Nat → Nat) (fuel : Nat) (past : Int) (pos : Nat) (l : List Int)
    (p : Nat) (hf : l.length < fuel) (hp : p ≤ l.length) :
    ∃ r, sort rnd fuel past pos l p = .ok r ∧ r.list.Perm l ∧
      (Ascending (l.take p) → Ascending r.list) := by
  induction fuel generalizing past pos l p with
  | zero => omega
  | succ fuel ih =>
    simp only [sort]
    by_cases hfull : p = l.length
    · subst hfull
      rw [specialcase_full]
      refine ⟨_, rfl, List.Perm.refl _, ?_⟩
      intro h
      simpa using h
    · by_cases hsmall : l.length ≤ 15
      · obtain ⟨net, _, hsc, hasc⟩ := specialcase_small l p hsmall hfull
        rw [hsc]
        exact ⟨_, rfl, applyNetwork_perm net l, fun _ => hasc⟩
      · rw [specialcase_large l p (by omega) hfull]
        obtain ⟨s, hs, hk, hord⟩ := split_spec rnd past pos l p (by omega) (by omega)
        have hlohi := hk.lohi
        have hhin := hk.hin
        obtain ⟨a, ha, haperm, haasc⟩ := ih (s.pivot past) s.pos s.left s.leftPre
          (by rw [split_left_length l s hk]; omega)
          (by rw [split_left_length l s hk]; exact hk.leftPre_le)
        obtain ⟨b, hb, hbperm, hbasc⟩ := ih past a.pos s.right s.rightPre
          (by rw [split_right_length l s hk]; omega)
          (by rw [split_right_length l s hk]; exact hk.rightPre_le)
        simp only [hs, ha, hb, Bool.false_eq_true, if_false]
        refine ⟨_, rfl, ?_, ?_⟩
        · show (a.list ++ s.run ++ b.list).Perm l
          refine List.Perm.trans ?_ hk.perm
          rw [← split_parts s (by omega)]
          exact (haperm.append_right _).append hbperm
        · intro hasc
          have ho := hord hasc
          have hA := haasc (split_left_asc past l s hk ho)
          have hB := hbasc (split_right_asc past l s hk ho)
          have hl : ∀ x ∈ a.list, x < s.pivot past :=
            fun x hx => split_left_lt past s ho x (haperm.mem_iff.1 hx)
          have hr : ∀ x ∈ b.list, s.pivot past ≤ x :=
            fun x hx => split_right_ge past s ho x (hbperm.mem_iff.1 hx)
          have hm := split_run_eq past s ho
          show Ascending (a.list ++ s.run ++ b.list)
          unfold Ascending List.Sorted at hA hB ⊢
          rw [List.pairwise_append, List.pairwise_append]
          refine ⟨⟨hA, ?_, ?_⟩, hB, ?_⟩
          · rw [List.pairwise_iff_forall_sublist]
            intro x y hxy
            have hx := hm x (hxy.subset (by simp))
            have hy := hm y (hxy.subset (by simp))
            omega
          · intro x hx y hy
            have := hl x hx
            have := hm y hy
            omega
          · intro x hx y hy
            have := hr y hy
            rcases List.mem_append.1 hx with h | h
            · have := hl x h
              omega
            · have := hm x h
              omega

/-! ## Consequences for `specialcase` and the assertion -/

theorem specialcase_ok_of_le (l : List Int) (p : Nat) (hn : l.length ≤ 15) :
    (specialcase l p).ok = true := by
  by_cases hp : p = l.length
  · subst hp
    rw [specialcase_full]
  · obtain ⟨net, _, hsc, _⟩ := specialcase_small l p hn hp
    rw [hsc]

theorem specialcase_not_ok (l : List Int) (p : Nat) (h : (specialcase l p).ok = false) :
    16 ≤ l.length ∧ p ≠ l.length := by
  constructor
  · by_contra hc
    rw [specialcase_ok_of_le l p (by omega)] at h
    cases h
  · intro hp
    subst hp
    rw [specialcase_full] at h
    cases h

theorem sort_no_assertion (rnd : Nat → Nat) (fuel : Nat) (past : Int) (pos : Nat)
    (l : List Int) (p : Nat) (hp : p ≤ l.length) :
    sort rnd fuel past pos l p ≠ .error Fault.assertion := by
  induction fuel generalizing past pos l p with
  | zero => simp [sort]
  | succ fuel ih =>
    simp only [sort]
    cases hsc : (specialcase l p).ok with
    | true => simp
    | false =>
      obtain ⟨hn, hne⟩ := specialcase_not_ok l p hsc
      obtain ⟨s, hs, hk, -⟩ := split_spec rnd past pos l p hn (by omega)
      have h1 := ih (s.pivot past) s.pos s.left s.leftPre
        (by rw [split_left_length l s hk]; exact hk.leftPre_le)
      simp only [hs, Bool.false_eq_true, if_false]
      cases ha : sort rnd fuel (s.pivot past) s.pos s.left s.leftPre with
      | error e =>
        rw [ha] at h1
        simpa using h1
      | ok a =>
        have h2 := ih past a.pos s.right s.rightPre
          (by rw [split_right_length l s hk]; exact hk.rightPre_le)
        dsimp only
        cases hb : sort rnd fuel past a.pos s.right s.rightPre with
        | error e =>
          rw [hb] at h2
          simpa using h2
        | ok b => simp

/-! ## The verifier `is_bounded` -/

/-- The element test of `is_bounded`. -/
theorem boundedRow_iff (l : List Int) (left : Bool) (pivot : Int) (i fuel j : Nat) (acc : Bool) :
    boundedRow l left pivot i fuel j acc = true ↔
      acc = true ∧ ∀ k, j ≤ k → k < j + fuel → k < stride → i + k < l.length →
        (if left then rd pivot l (i + k) < pivot else ¬ rd pivot l (i + k) < pivot) := by
  induction fuel generalizing j acc with
  | zero =>
    simp only [boundedRow]
    constructor
    · intro h
      exact ⟨h, fun k h1 h2 => by omega⟩
    · intro h
      exact h.1
  | succ fuel ih =>
    simp only [boundedRow]
    split
    · rename_i hc
      rw [ih]
      constructor
      · rintro ⟨h1, h2⟩
        simp only [Bool.and_eq_true] at h1
        refine ⟨h1.1, ?_⟩
        intro k k1 k2 k3 k4
        by_cases hk : k = j
        · subst hk
          have := h1.2
          cases left <;> simp_all
        · exact h2 k (by omega) (by omega) k3 k4
      · rintro ⟨h1, h2⟩
        refine ⟨?_, fun k k1 k2 k3 k4 => h2 k (by omega) (by omega) k3 k4⟩
        have := h2 j (le_refl _) (by omega) hc.1 hc.2
        cases left <;> simp_all
    · rename_i hc
      constructor
      · intro h
        refine ⟨h, ?_⟩
        intro k k1 k2 k3 k4
        exact absurd ⟨by omega, by omega⟩ hc
      · intro h
        exact h.1

theorem boundedRows_iff (l : List Int) (left : Bool) (pivot : Int) (fuel i : Nat) (acc : Bool) :
    boundedRows l left pivot fuel i acc = true ↔
      acc = true ∧ ∀ k, i ≤ k → k < i + stride * fuel → k < l.length →
        (if left then rd pivot l k < pivot else ¬ rd pivot l k < pivot) := by
  induction fuel generalizing i acc with
  | zero =>
    simp only [boundedRows]
    constructor
    · intro h
      exact ⟨h, fun k h1 h2 => by omega⟩
    · intro h
      exact h.1
  | succ fuel ih =>
    simp only [boundedRows]
    split
    · rename_i hc
      rw [ih]
      have hrow := boundedRow_iff l left pivot i stride 0 true
      constructor
      · rintro ⟨h1, h2⟩
        have hr : boundedRow l left pivot i stride 0 true = true := by
          cases hb : boundedRow l left pivot i stride 0 true
          · rw [hb] at h1; simp at h1
          · rfl
        have hacc : acc = true := by
          rw [hr] at h1; simpa using h1
        refine ⟨hacc, ?_⟩
        intro k k1 k2 k3
        by_cases hk : k < i + stride
        · have := (hrow.1 hr).2 (k - i) (by omega) (by omega) (by omega) (by omega)
          have e : i + (k - i) = k := by omega
          rw [e] at this
          exact this
        · exact h2 k (by omega) (by rw [Nat.mul_succ] at k2; omega) k3
      · rintro ⟨h1, h2⟩
        have hr : boundedRow l left pivot i stride 0 true = true := by
          rw [hrow]
          refine ⟨rfl, ?_⟩
          intro k _ k2 k3 k4
          exact h2 (i + k) (by omega) (by rw [Nat.mul_succ]; omega) k4
        refine ⟨by rw [hr, h1]; rfl, ?_⟩
        intro k k1 k2 k3
        exact h2 k (by omega) (by rw [Nat.mul_succ]; omega) k3
    · rename_i hc
      constructor
      · intro h
        exact ⟨h, fun k k1 k2 k3 => by omega⟩
      · intro h
        exact h.1

/-- The verifier `is_bounded` returns true exactly when every element of the
list is on the side of the pivot that `left` selects. -/
theorem is_bounded_iff (l : List Int) (left : Bool) (pivot : Int) :
    is_bounded l left pivot = true ↔
      ∀ x ∈ l, (if left then x < pivot else ¬ x < pivot) := by
  unfold is_bounded
  rw [boundedRows_iff]
  constructor
  · rintro ⟨-, h⟩ x hx
    obtain ⟨k, hk, rfl⟩ := List.mem_iff_getElem.1 hx
    have := h k (Nat.zero_le _) (by simp only [stride]; omega) hk
    simpa [rd, List.getElem?_eq_getElem hk] using this
  · intro h
    refine ⟨rfl, ?_⟩
    intro k _ _ hk
    have hmem : rd pivot l k ∈ l := by
      simp [rd, List.getElem?_eq_getElem hk]
    exact h _ hmem

theorem is_bounded_of_forall (l : List Int) (left : Bool) (pivot : Int)
    (h : ∀ x ∈ l, (if left then x < pivot else ¬ x < pivot)) :
    is_bounded l left pivot = true :=
  (is_bounded_iff l left pivot).2 h

/-- The partition loop of a call that `specialcase` did not handle reaches its
`break` within the fuel it is given, with the two pointers equal. -/
theorem partition_ends (rnd : Nat → Nat) (past : Int) (pos : Nat) (l : List Int) (p : Nat)
    (hn : 16 ≤ l.length) (hp : p < l.length) :
    ∃ b q, bootstrap rnd pos l p = .ok b ∧
      partitionLoop past (rewind past b.list (b.pre / 2)) (b.list.length + 1) b.list b.pre
        b.list.length 0 = some q ∧ q.lo = q.hi := by
  obtain ⟨b, hb, hbperm, hb3, hblt, -, -, -⟩ := bootstrap_spec rnd pos l p hn hp
  have hblen : b.list.length = l.length := hbperm.length_eq
  have hlple := rewind_le past b.list (b.pre / 2)
  have inv0 : PartInv past b.list b.pre (rewind past b.list (b.pre / 2)) b.list b.pre
      b.list.length :=
    ⟨rfl, List.Perm.refl _, le_refl _, by omega, le_refl _, fun _ _ => rfl,
      fun i h1 h2 => by omega, fun i h1 h2 => by omega⟩
  obtain ⟨q, hq, -, qeq⟩ := partitionLoop_spec past b.list b.pre
    (rewind past b.list (b.pre / 2)) (by omega) (b.list.length + 1) b.list b.pre
    b.list.length 0 inv0 (Or.inl (by omega))
  exact ⟨b, q, hb, hq, qeq⟩

/-! ## Claims on `sort` -/

theorem ascending_take_zero (l : List Int) : Ascending (l.take 0) := by
  simp [Ascending]

/-- C1: for every list, every prefix `p` within the length whose first `p`
elements are non-decreasing, and every sequence of random values, `sort(list, p)`
completes and leaves the list in non-decreasing order; so does the entry call
`sort(list)`, whose prefix is 0. -/
theorem sort_ascending (rnd : Nat → Nat) (fuel : Nat) (past : Int) (pos : Nat)
    (list : List Int) (p : Nat) (hf : list.length < fuel) (hp : p ≤ list.length)
    (hpre : Ascending (list.take p)) :
    (∃ r, sort rnd fuel past pos list p = .ok r ∧ Ascending r.list) ∧
      (∃ r, sortEntry rnd past list = .ok r ∧ Ascending r.list) := by
  constructor
  · obtain ⟨r, hr, -, hasc⟩ := sort_spec rnd fuel past pos list p hf hp
    exact ⟨r, hr, hasc hpre⟩
  · obtain ⟨r, hr, -, hasc⟩ :=
      sort_spec rnd (list.length + 1) past 0 list 0 (by omega) (by omega)
    exact ⟨r, hr, hasc (ascending_take_zero list)⟩

theorem sort_ascending_witness :
    (∃ r, sort (fun i => 7 * i + 3) 21 0 0
        [2, 4, 4, 9, 1, 8, 3, 3, 7, 0, 12, 5, 6, 11, 2, 10, 4, 9, 1, 8] 4 = .ok r ∧
        Ascending r.list) ∧
      (∃ r, sortEntry (fun i => 7 * i + 3) 0
        [2, 4, 4, 9, 1, 8, 3, 3, 7, 0, 12, 5, 6, 11, 2, 10, 4, 9, 1, 8] = .ok r ∧
        Ascending r.list) :=
  sort_ascending (fun i => 7 * i + 3) 21 0 0
    [2, 4, 4, 9, 1, 8, 3, 3, 7, 0, 12, 5, 6, 11, 2, 10, 4, 9, 1, 8] 4
    (by decide) (by decide) (by decide)

/-- C2: for every list, every prefix `p` within the length and every sequence
of random values, the list after `sort(list, p)` is a permutation of the list
before it. -/
theorem sort_perm (rnd : Nat → Nat) (fuel : Nat) (past : Int) (pos : Nat)
    (list : List Int) (p : Nat) (hf : list.length < fuel) (hp : p ≤ list.length) :
    ∃ r, sort rnd fuel past pos list p = .ok r ∧ r.list.Perm list := by
  obtain ⟨r, hr, hperm, -⟩ := sort_spec rnd fuel past pos list p hf hp
  exact ⟨r, hr, hperm⟩

theorem sort_perm_witness :
    ∃ r, sort (fun i => 5 * i + 1) 19 0 0
        [9, 1, 5, 3, 1, 8, 3, 3, 7, 0, 12, 5, 6, 11, 2, 10, 4, 9] 5 = .ok r ∧
      r.list.Perm [9, 1, 5, 3, 1, 8, 3, 3, 7, 0, 12, 5, 6, 11, 2, 10, 4, 9] :=
  sort_perm (fun i => 5 * i + 1) 19 0 0
    [9, 1, 5, 3, 1, 8, 3, 3, 7, 0, 12, 5, 6, 11, 2, 10, 4, 9] 5 (by decide) (by decide)

/-- C3: for every list and every sequence of random values, the entry call
`sort(list)` produces exactly the sequence that the reference ascending sort
produces from the same input, so the result is the same for any two random
sequences. -/
theorem sort_eq_reference (rnd : Nat → Nat) (past : Int) (list : List Int) :
    (∃ r, sortEntry rnd past list = .ok r ∧ r.list = referenceSort list) ∧
      ∀ (rnd2 : Nat → Nat) (past2 : Int),
        (sortEntry rnd2 past2 list).toOption.map Run.list =
          (sortEntry rnd past list).toOption.map Run.list := by
  have key : ∀ (g : Nat → Nat) (q : Int),
      ∃ r, sortEntry g q list = .ok r ∧ r.list = referenceSort list := by
    intro g q
    obtain ⟨r, hr, hperm, hasc⟩ :=
      sort_spec g (list.length + 1) q 0 list 0 (by omega) (by omega)
    refine ⟨r, hr, ?_⟩
    have h1 : r.list.Perm (referenceSort list) :=
      hperm.trans (List.perm_insertionSort (· ≤ ·) list).symm
    exact List.eq_of_perm_of_sorted h1 (hasc (ascending_take_zero list))
      (List.sorted_insertionSort (· ≤ ·) list)
  refine ⟨key rnd past, ?_⟩
  intro rnd2 past2
  obtain ⟨r1, h1, e1⟩ := key rnd past
  obtain ⟨r2, h2, e2⟩ := key rnd2 past2
  rw [h1, h2]
  simp [Except.toOption, e1, e2]

/-- C5: for every list, every prefix `p` within the length and every sequence
of random values, `sort(list, p)` completes with fuel above the length.  In a
call that `specialcase` does not handle, the partition loop reaches its `break`
(the pointers have met), the excluded pivot run holds at least one element, the
three parts make up the range, and both children are strictly shorter than the
range. -/
theorem sort_terminates (rnd : Nat → Nat) (fuel : Nat) (past : Int) (pos : Nat)
    (list : List Int) (p : Nat) (hf : list.length < fuel) (hp : p ≤ list.length) :
    (∃ r, sort rnd fuel past pos list p = .ok r) ∧
      ((specialcase list p).ok = false →
        (∃ b q, bootstrap rnd pos list p = .ok b ∧
          partitionLoop past (rewind past b.list (b.pre / 2)) (b.list.length + 1) b.list b.pre
            b.list.length 0 = some q ∧ ¬ (q.lo < q.hi)) ∧
        ∃ s, split rnd past pos list p = .ok s ∧ 1 ≤ s.run.length ∧
          s.left.length + s.run.length + s.right.length = list.length ∧
          s.left.length < list.length ∧ s.right.length < list.length) := by
  constructor
  · obtain ⟨r, hr, -, -⟩ := sort_spec rnd fuel past pos list p hf hp
    exact ⟨r, hr⟩
  · intro hsc
    obtain ⟨hn, hne⟩ := specialcase_not_ok list p hsc
    obtain ⟨s, hs, hk, -⟩ := split_spec rnd past pos list p hn (by omega)
    obtain ⟨b, q, hb, hq, hqeq⟩ := partition_ends rnd past pos list p hn (by omega)
    have hlohi := hk.lohi
    have hhin := hk.hin
    have hlen := hk.perm.length_eq
    have hrun : s.run.length = s.hi - s.lo := by
      simp only [Split.run, List.length_take, List.length_drop]
      omega
    refine ⟨⟨b, q, hb, hq, by omega⟩, s, hs, ?_, ?_, ?_, ?_⟩
    · omega
    · rw [split_left_length list s hk, split_right_length list s hk, hrun]; omega
    · rw [split_left_length list s hk]; omega
    · rw [split_right_length list s hk]; omega

theorem sort_terminates_witness :
    (∃ r, sort (fun i => 3 * i) 18 0 0
        [5, 5, 5, 5, 5, 5, 5, 5, 5, 5, 5, 5, 5, 5, 5, 5, 5] 0 = .ok r) ∧
      (∃ b q, bootstrap (fun i => 3 * i) 0
          [5, 5, 5, 5, 5, 5, 5, 5, 5, 5, 5, 5, 5, 5, 5, 5, 5] 0 = .ok b ∧
        partitionLoop 0 (rewind 0 b.list (b.pre / 2)) (b.list.length + 1) b.list b.pre
          b.list.length 0 = some q ∧ ¬ (q.lo < q.hi)) ∧
      ∃ s, split (fun i => 3 * i) 0 0
          [5, 5, 5, 5, 5, 5, 5, 5, 5, 5, 5, 5, 5, 5, 5, 5, 5] 0 = .ok s ∧
        1 ≤ s.run.length ∧
        s.left.length + s.run.length + s.right.length =
          [5, 5, 5, 5, 5, 5, 5, 5, 5, 5, 5, 5, 5, 5, 5, 5, (5 : Int)].length ∧
        s.left.length < [5, 5, 5, 5, 5, 5, 5, 5, 5, 5, 5, 5, 5, 5, 5, 5, (5 : Int)].length ∧
        s.right.length < [5, 5, 5, 5, 5, 5, 5, 5, 5, 5, 5, 5, 5, 5, 5, 5, (5 : Int)].length :=
  ⟨(sort_terminates (fun i => 3 * i) 18 0 0
      [5, 5, 5, 5, 5, 5, 5, 5, 5, 5, 5, 5, 5, 5, 5, 5, 5] 0 (by decide) (by decide)).1,
    (sort_terminates (fun i => 3 * i) 18 0 0
      [5, 5, 5, 5, 5, 5, 5, 5, 5, 5, 5, 5, 5, 5, 5, 5, 5] 0 (by decide) (by decide)).2
      (by decide)⟩

/-- C6: for every list, `sort(list, |list|)` returns at once with the list
unchanged, having performed no compare-exchange and no swap and drawn no random
value; `specialcase` already returns true on its first line. -/
theorem sort_full_prefix (rnd : Nat → Nat) (fuel : Nat) (past : Int) (pos : Nat)
    (list : List Int) :
    sort rnd (fuel + 1) past pos list list.length = .ok ⟨list, pos, 0⟩ ∧
      specialcase list list.length = ⟨true, list, 0⟩ := by
  refine ⟨?_, specialcase_full list⟩
  simp only [sort, specialcase_full, if_true]

/-- C7: the assertion of the bootstrap step cannot fail: for every list, every
prefix `p` within the length and every sequence of random values, a call that
reaches the bootstrap step has `new_prefix = min(15, |list|)` at most 15 and
different from the inherited prefix, `specialcase` returns true on the first
`new_prefix` elements, and no call of `sort` stops on the assertion. -/
theorem bootstrap_assertion_unreachable (rnd : Nat → Nat) (past : Int) (pos : Nat)
    (list : List Int) (p : Nat) (hp : p ≤ list.length) :
    ((specialcase list p).ok = false → p < min_prefix →
        min init_prefix list.length ≤ 15 ∧ min init_prefix list.length ≠ p ∧
        (specialcase
          ((shuffle rnd (min init_prefix list.length - p) p pos list).1.take
            (min init_prefix list.length)) p).ok = true ∧
        ∃ b, bootstrap rnd pos list p = .ok b) ∧
      ∀ fuel, sort rnd fuel past pos list p ≠ .error Fault.assertion := by
  refine ⟨?_, fun fuel => sort_no_assertion rnd fuel past pos list p hp⟩
  intro hsc h3
  obtain ⟨hn, hne⟩ := specialcase_not_ok list p hsc
  have hmin : min init_prefix list.length = 15 := by simp [ init_prefix]; omega
  have h3' : p < 3 := h3
  obtain ⟨b, hb, -⟩ := bootstrap_spec rnd pos list p hn (by omega)
  refine ⟨by omega, by omega, ?_, b, hb⟩
  apply specialcase_ok_of_le
  rw [List.length_take]
  omega

theorem bootstrap_assertion_unreachable_witness :
    (min init_prefix [3, 1, 4, 1, 5, 9, 2, 6, 5, 3, 5, 8, 9, 7, 9, 3, (2 : Int)].length ≤ 15 ∧
        min init_prefix [3, 1, 4, 1, 5, 9, 2, 6, 5, 3, 5, 8, 9, 7, 9, 3, (2 : Int)].length ≠ 1 ∧
        (specialcase
          ((shuffle (fun i => i * i)
            (min init_prefix [3, 1, 4, 1, 5, 9, 2, 6, 5, 3, 5, 8, 9, 7, 9, 3, (2 : Int)].length - 1)
            1 0 [3, 1, 4, 1, 5, 9, 2, 6, 5, 3, 5, 8, 9, 7, 9, 3, 2]).1.take
            (min init_prefix
              [3, 1, 4, 1, 5, 9, 2, 6, 5, 3, 5, 8, 9, 7, 9, 3, (2 : Int)].length)) 1).ok = true ∧
        ∃ b, bootstrap (fun i => i * i) 0
          [3, 1, 4, 1, 5, 9, 2, 6, 5, 3, 5, 8, 9, 7, 9, 3, 2] 1 = .ok b) ∧
      ∀ fuel, sort (fun i => i * i) fuel 0 0
        [3, 1, 4, 1, 5, 9, 2, 6, 5, 3, 5, 8, 9, 7, 9, 3, 2] 1 ≠ .error Fault.assertion :=
  ⟨(bootstrap_assertion_unreachable (fun i => i * i) 0 0
      [3, 1, 4, 1, 5, 9, 2, 6, 5, 3, 5, 8, 9, 7, 9, 3, 2] 1 (by decide)).1
      (by decide) (by decide),
    (bootstrap_assertion_unreachable (fun i => i * i) 0 0
      [3, 1, 4, 1, 5, 9, 2, 6, 5, 3, 5, 8, 9, 7, 9, 3, 2] 1 (by decide)).2⟩

/-! ## Claims on the split -/

theorem rd_replicate (past : Int) (n : Nat) (v : Int) (i : Nat) (h : i < n) :
    rd past (List.replicate n v) i = v := by
  simp [rd, List.getElem?_replicate, h]

/-- C8: for every list of at least 16 elements that are all equal and every
sequence of random values, `sort(list)` returns the list as it was, and its
first partition step takes the whole range as the pivot run: the pivot index
rewinds to 0, the run starts at 0 and ends at the end of the range, and both
children are empty. -/
theorem sort_all_equal (rnd : Nat → Nat) (past : Int) (list : List Int) (v : Int)
    (hn : 16 ≤ list.length) (hall : ∀ x ∈ list, x = v) :
    (∃ r, sortEntry rnd past list = .ok r ∧ r.list = list) ∧
      ∃ s, split rnd past 0 list 0 = .ok s ∧ s.leftPre = 0 ∧ s.lo = 0 ∧
        s.hi = list.length ∧ s.left = [] ∧ s.right = [] ∧ s.run = list := by
  have hl : list = List.replicate list.length v := List.eq_replicate_iff.2 ⟨rfl, hall⟩
  constructor
  · obtain ⟨r, hr, hperm, -⟩ :=
      sort_spec rnd (list.length + 1) past 0 list 0 (by omega) (by omega)
    refine ⟨r, hr, ?_⟩
    rw [hl] at hperm ⊢
    exact List.perm_replicate.1 hperm
  · obtain ⟨s, hs, hk, hord⟩ := split_spec rnd past 0 list 0 hn (by omega)
    have ho := hord (ascending_take_zero list)
    have hlist : s.list = List.replicate list.length v := by
      have hperm := hk.perm
      rw [hl] at hperm
      exact List.perm_replicate.1 hperm
    have hlohi := hk.lohi
    have hhin := hk.hin
    have hlen : s.list.length = list.length := hk.perm.length_eq
    have hpiv : s.pivot past = v := by
      rw [Split.pivot, hlist, rd_replicate past _ v s.lo (by omega)]
    have hlo : s.lo = 0 := by
      by_contra hc
      have := ho.left_lt 0 (by omega)
      rw [hpiv, hlist, rd_replicate past _ v 0 (by omega)] at this
      omega
    have hhi : s.hi = list.length := by
      by_contra hc
      have := ho.right_gt (by omega)
      rw [hpiv, hlist, rd_replicate past _ v s.hi (by omega)] at this
      omega
    have hpre := hk.leftPre_le
    refine ⟨s, hs, by omega, hlo, hhi, ?_, ?_, ?_⟩
    · simp [Split.left, hlo]
    · simp [Split.right, hhi, ← hlen]
    · have := split_parts s (by omega)
      simp only [Split.left, Split.right, hlo, hhi, ← hlen, List.take_zero, List.drop_length,
        List.nil_append, List.append_nil] at this
      rw [this, hlist, ← hl]

theorem sort_all_equal_witness :
    (∃ r, sortEntry (fun i => 11 * i + 5) 0 (List.replicate 50 7) = .ok r ∧
        r.list = List.replicate 50 7) ∧
      ∃ s, split (fun i => 11 * i + 5) 0 0 (List.replicate 50 7) 0 = .ok s ∧ s.leftPre = 0 ∧
        s.lo = 0 ∧ s.hi = (List.replicate 50 (7 : Int)).length ∧ s.left = [] ∧ s.right = [] ∧
        s.run = List.replicate 50 7 :=
  sort_all_equal (fun i => 11 * i + 5) 0 (List.replicate 50 7) 7 (by decide) (by decide)

/-- C9: in every call of `sort` that reaches the recursion step with a sorted
inherited prefix, when the children are formed every element of the left child
is strictly less than the pivot value and no element of the right child is less
than it; `is_bounded` returns true on both children. -/
theorem children_bounded (rnd : Nat → Nat) (past : Int) (pos : Nat) (list : List Int)
    (p : Nat) (hp : p ≤ list.length) (hpre : Ascending (list.take p))
    (hrec : (specialcase list p).ok = false) :
    ∃ s, split rnd past pos list p = .ok s ∧
      (∀ x ∈ s.left, x < s.pivot past) ∧ (∀ x ∈ s.right, ¬ x < s.pivot past) ∧
      is_bounded s.left true (s.pivot past) = true ∧
      is_bounded s.right false (s.pivot past) = true := by
  obtain ⟨hn, hne⟩ := specialcase_not_ok list p hrec
  obtain ⟨s, hs, hk, hord⟩ := split_spec rnd past pos list p hn (by omega)
  have ho := hord hpre
  have hl := split_left_lt past s ho
  have hr : ∀ x ∈ s.right, ¬ x < s.pivot past := by
    intro x hx
    have := split_right_ge past s ho x hx
    omega
  refine ⟨s, hs, hl, hr, ?_, ?_⟩
  · apply is_bounded_of_forall
    intro x hx
    simpa using hl x hx
  · apply is_bounded_of_forall
    intro x hx
    simpa using hr x hx

theorem children_bounded_witness :
    ∃ s, split (fun i => 2 * i + 1) 0 0
        [1, 2, 3, 5, 2, 7, 0, 9, 4, 8, 6, 3, 5, 7, 9, 1] 3 = .ok s ∧
      (∀ x ∈ s.left, x < s.pivot 0) ∧ (∀ x ∈ s.right, ¬ x < s.pivot 0) ∧
      is_bounded s.left true (s.pivot 0) = true ∧
      is_bounded s.right false (s.pivot 0) = true :=
  children_bounded (fun i => 2 * i + 1) 0 0 [1, 2, 3, 5, 2, 7, 0, 9, 4, 8, 6, 3, 5, 7, 9, 1] 3
    (by decide) (by decide) (by decide)

/-- C10, as stated, fails.  Entry call on `[1, ..., 15, 8]` with a random source
that always draws the first candidate: the bootstrap swaps each cell with itself
and the network leaves the sorted first 15 cells alone; the pivot is cell 7 with
value 8; the one tail cell, an 8, is not below the pivot, so the pointers meet at
15 and the relocation swaps cells with themselves; the cull stops at cell 8,
which holds 9.  The right child is `[9, ..., 15, 8]` and still holds an 8, which
is not strictly greater than the pivot value. -/
theorem right_child_keeps_pivot_value :
    ∃ s, split (fun _ => 0) 0 0 [1, 2, 3, 4, 5, 6, 7, 8, 9, 10, 11, 12, 13, 14, 15, 8] 0 = .ok s ∧
      s.pivot 0 = 8 ∧ s.right = [9, 10, 11, 12, 13, 14, 15, 8] ∧
      ¬ (∀ x ∈ s.right, s.pivot 0 < x) :=
  ⟨⟨[1, 2, 3, 4, 5, 6, 7, 8, 9, 10, 11, 12, 13, 14, 15, 8], 7, 8, 7, 7, 15, 80⟩,
    by decide!, by decide, by decide, by decide⟩

/-- C10, amended: after a partition against pivot value `p` with a sorted
inherited prefix, no element of the right child is less than `p`, and the first
element of the right child and every element of its inherited sorted prefix is
strictly greater than `p`. -/
theorem right_child_bound (rnd : Nat → Nat) (past : Int) (pos : Nat) (list : List Int)
    (p : Nat) (hp : p ≤ list.length) (hpre : Ascending (list.take p))
    (hrec : (specialcase list p).ok = false) :
    ∃ s, split rnd past pos list p = .ok s ∧
      (∀ x ∈ s.right, s.pivot past ≤ x) ∧
      (∀ x ∈ s.right.head?, s.pivot past < x) ∧
      (∀ x ∈ s.right.take s.rightPre, s.pivot past < x) := by
  obtain ⟨hn, hne⟩ := specialcase_not_ok list p hrec
  obtain ⟨s, hs, hk, hord⟩ := split_spec rnd past pos list p hn (by omega)
  have ho := hord hpre
  have hlen : s.list.length = list.length := hk.perm.length_eq
  have hrp := hk.rightPre_le
  have hfirst : ∀ i, i < s.rightPre → s.pivot past < rd past s.list (s.hi + i) := by
    intro i hi
    have h0 := ho.right_gt (by omega)
    by_cases hi0 : i = 0
    · rw [hi0]; exact h0
    · have := ho.right_asc 0 i (by omega) hi
      simp only [Nat.add_zero] at this
      omega
  refine ⟨s, hs, split_right_ge past s ho, ?_, ?_⟩
  · intro x hx
    have hx' : s.right[0]? = some x := by
      rw [← List.head?_eq_getElem?]; exact hx
    have hlt : 0 < s.right.length := lt_length_of_getElem? hx'
    rw [split_right_length list s hk] at hlt
    have h0 := ho.right_gt (by omega)
    have : rd past s.list s.hi = x := by
      simp only [Split.right, List.getElem?_drop, Nat.add_zero] at hx'
      simp [rd, hx']
    rw [← this]; exact h0
  · intro x hx
    obtain ⟨i, h1, h2, rfl⟩ := mem_take_rd past s.right s.rightPre x hx
    rw [Split.right, rd_drop]
    exact hfirst i h1

theorem right_child_bound_witness :
    ∃ s, split (fun _ => 0) 0 0
        [1, 2, 3, 4, 5, 6, 7, 8, 9, 10, 11, 12, 13, 14, 15, 8] 0 = .ok s ∧
      (∀ x ∈ s.right, s.pivot 0 ≤ x) ∧
      (∀ x ∈ s.right.head?, s.pivot 0 < x) ∧
      (∀ x ∈ s.right.take s.rightPre, s.pivot 0 < x) :=
  right_child_bound (fun _ => 0) 0 0 [1, 2, 3, 4, 5, 6, 7, 8, 9, 10, 11, 12, 13, 14, 15, 8] 0
    (by decide) (by decide) (by decide)

/-! ## Compare-exchange -/

/-- C20: for every pair of elements, after `ce(a, b)` the first position holds
the smaller and the second the larger value, and the two values are the two
given ones as a multiset, also when they compare equal. -/
theorem ce_ordered (a b : Int) :
    (ce a b).1 ≤ (ce a b).2 ∧ (ce a b).1 = min a b ∧ (ce a b).2 = max a b ∧
      ({(ce a b).1, (ce a b).2} : Multiset Int) = {a, b} ∧ ce a a = (a, a) := by
  have hmin : stdMin a b = min a b := by
    unfold stdMin
    split
    · rw [min_eq_right]; omega
    · rw [min_eq_left]; omega
  have hmax : stdMax a b = max a b := by
    unfold stdMax
    split
    · rw [max_eq_right]; omega
    · rw [max_eq_left]; omega
  refine ⟨?_, hmin, hmax, ?_, ?_⟩
  · show stdMin a b ≤ stdMax a b
    rw [hmin, hmax]
    exact le_trans (min_le_left a b) (le_max_left a b)
  · show ({stdMin a b, stdMax a b} : Multiset Int) = {a, b}
    unfold stdMin stdMax
    by_cases h1 : b < a
    · have h2 : ¬ a < b := by omega
      rw [if_pos h1, if_neg h2]
      exact Multiset.pair_comm b a
    · by_cases h2 : a < b
      · rw [if_neg h1, if_pos h2]
      · have : a = b := by omega
        subst this
        rw [if_neg h1]
  · simp [ce, stdMin, stdMax]

/-! ## The steps of a partitioning call, one by one -/

/-- The intermediate states of a call that `specialcase` did not handle: the
state `b` after the bootstrap step, the state `q` on leaving the partition loop
and the split `s`, with what each later step computes from them. -/
theorem split_shape (rnd : Nat → Nat) (past : Int) (pos : Nat) (l : List Int) (p : Nat)
    (hn : 16 ≤ l.length) (hp : p < l.length) :
    ∃ b q s, bootstrap rnd pos l p = .ok b ∧
      partitionLoop past (rewind past b.list (b.pre / 2)) (b.list.length + 1) b.list b.pre
        b.list.length 0 = some q ∧
      split rnd past pos l p = .ok s ∧
      PartInv past b.list b.pre (rewind past b.list (b.pre / 2)) q.list q.lo q.hi ∧
      q.lo = q.hi ∧ 3 ≤ b.pre ∧ b.pre < l.length ∧ b.list.length = l.length ∧
      s.leftPre = rewind past b.list (b.pre / 2) ∧ s.leftPre < b.pre ∧
      s.list = (relocate (b.pre - s.leftPre) q.list q.lo b.pre).1 ∧
      s.lo = q.lo - (b.pre - s.leftPre) ∧
      s.hi = cull past s.list s.lo (s.list.length - (s.lo + 1)) (s.lo + 1) ∧
      s.rightPre = (if s.hi < s.lo + (b.pre - s.leftPre)
        then s.lo + (b.pre - s.leftPre) - s.hi else 0) := by
  obtain ⟨b, hb, hbperm, hb3, hblt, -, -, -⟩ := bootstrap_spec rnd pos l p hn hp
  have hblen : b.list.length = l.length := hbperm.length_eq
  have hlple := rewind_le past b.list (b.pre / 2)
  have hlplt : rewind past b.list (b.pre / 2) < b.pre := by omega
  have inv0 : PartInv past b.list b.pre (rewind past b.list (b.pre / 2)) b.list b.pre
      b.list.length :=
    ⟨rfl, List.Perm.refl _, le_refl _, by omega, le_refl _, fun _ _ => rfl,
      fun i h1 h2 => by omega, fun i h1 h2 => by omega⟩
  obtain ⟨q, hq, qinv, qeq⟩ := partitionLoop_spec past b.list b.pre
    (rewind past b.list (b.pre / 2)) hlplt (b.list.length + 1) b.list b.pre
    b.list.length 0 inv0 (Or.inl (by omega))
  have hqlen := qinv.len
  have hqplo := qinv.plo
  have hqhin := qinv.hin
  obtain ⟨m1, -⟩ := relocate_spec past (b.pre - rewind past b.list (b.pre / 2)) q.list q.lo
    b.pre (by omega) hqplo (by omega)
  have heq := split_eq rnd past pos l p b q (rewind past b.list (b.pre / 2))
    (b.pre - rewind past b.list (b.pre / 2)) _ _ _ hb rfl hq rfl rfl rfl rfl
  refine ⟨b, q, _, hb, hq, heq, qinv, qeq, hb3, hblt, hblen, rfl, hlplt, rfl, m1, rfl, rfl⟩

theorem sort_step (rnd : Nat → Nat) (fuel : Nat) (past : Int) (pos : Nat) (l : List Int)
    (p : Nat) (s : Split) (hrec : (specialcase l p).ok = false)
    (hs : split rnd past pos l p = .ok s) :
    sort rnd (fuel + 1) past pos l p =
      match sort rnd fuel (s.pivot past) s.pos s.left s.leftPre with
      | .error e => .error e
      | .ok a =>
        match sort rnd fuel past a.pos s.right s.rightPre with
        | .error e => .error e
        | .ok b => .ok ⟨a.list ++ s.run ++ b.list, b.pos, s.ops + a.ops + b.ops⟩ := by
  simp only [sort, hrec, hs, Bool.false_eq_true, if_false]

theorem split_run_length (l : List Int) (s : Split) (hk : SplitOk l s) :
    s.run.length = s.hi - s.lo := by
  have := hk.lohi
  have := hk.hin
  have := hk.perm.length_eq
  simp only [Split.run, List.length_take, List.length_drop]
  omega

/-- C12: in every partitioning call on a range of length `n` the bounds satisfy
`lo < hi ≤ n`; the left zone `[0, lo)`, the pivot run `[lo, hi)` and the right
zone `[hi, n)` put one after the other are the whole range, every position is
in exactly one of them, and their lengths add up to `n` with at least one
element in the pivot run. -/
theorem split_zones (rnd : Nat → Nat) (past : Int) (pos : Nat) (list : List Int) (p : Nat)
    (hp : p ≤ list.length) (hrec : (specialcase list p).ok = false) :
    ∃ s, split rnd past pos list p = .ok s ∧ s.lo < s.hi ∧ s.hi ≤ list.length ∧
      s.list.length = list.length ∧ s.left ++ s.run ++ s.right = s.list ∧
      s.left.length = s.lo ∧ s.run.length = s.hi - s.lo ∧
      s.right.length = list.length - s.hi ∧
      s.left.length + s.run.length + s.right.length = list.length ∧ 1 ≤ s.run.length ∧
      ∀ i, i < list.length →
        (i < s.lo ∧ ¬ (s.lo ≤ i ∧ i < s.hi) ∧ ¬ s.hi ≤ i) ∨
        (¬ i < s.lo ∧ (s.lo ≤ i ∧ i < s.hi) ∧ ¬ s.hi ≤ i) ∨
        (¬ i < s.lo ∧ ¬ (s.lo ≤ i ∧ i < s.hi) ∧ s.hi ≤ i) := by
  obtain ⟨hn, hne⟩ := specialcase_not_ok list p hrec
  obtain ⟨s, hs, hk, -⟩ := split_spec rnd past pos list p hn (by omega)
  have hlohi := hk.lohi
  have hhin := hk.hin
  have h1 := split_left_length list s hk
  have h2 := split_run_length list s hk
  have h3 := split_right_length list s hk
  refine ⟨s, hs, hlohi, hhin, hk.perm.length_eq, split_parts s (by omega), h1, h2, h3,
    by omega, by omega, ?_⟩
  intro i hi
  omega

theorem split_zones_witness :
    ∃ s, split (fun i => 4 * i + 1) 0 0
        [2, 7, 1, 8, 2, 8, 1, 8, 2, 8, 4, 5, 9, 0, 4, 5, 2, 3] 0 = .ok s ∧
      s.lo < s.hi ∧
      s.hi ≤ [2, 7, 1, 8, 2, 8, 1, 8, 2, 8, 4, 5, 9, 0, 4, 5, 2, (3 : Int)].length ∧
      s.list.length = [2, 7, 1, 8, 2, 8, 1, 8, 2, 8, 4, 5, 9, 0, 4, 5, 2, (3 : Int)].length ∧
      s.left ++ s.run ++ s.right = s.list ∧
      s.left.length = s.lo ∧ s.run.length = s.hi - s.lo ∧
      s.right.length =
        [2, 7, 1, 8, 2, 8, 1, 8, 2, 8, 4, 5, 9, 0, 4, 5, 2, (3 : Int)].length - s.hi ∧
      s.left.length + s.run.length + s.right.length =
        [2, 7, 1, 8, 2, 8, 1, 8, 2, 8, 4, 5, 9, 0, 4, 5, 2, (3 : Int)].length ∧
      1 ≤ s.run.length ∧
      ∀ i, i < [2, 7, 1, 8, 2, 8, 1, 8, 2, 8, 4, 5, 9, 0, 4, 5, 2, (3 : Int)].length →
        (i < s.lo ∧ ¬ (s.lo ≤ i ∧ i < s.hi) ∧ ¬ s.hi ≤ i) ∨
        (¬ i < s.lo ∧ (s.lo ≤ i ∧ i < s.hi) ∧ ¬ s.hi ≤ i) ∨
        (¬ i < s.lo ∧ ¬ (s.lo ≤ i ∧ i < s.hi) ∧ s.hi ≤ i) :=
  split_zones (fun i => 4 * i + 1) 0 0 [2, 7, 1, 8, 2, 8, 1, 8, 2, 8, 4, 5, 9, 0, 4, 5, 2, 3] 0
    (by decide) (by decide)

/-- C13: if `sort` is called with a prefix `p` within the length and the first
`p` elements non-decreasing, then each of its two recursive calls is made with a
prefix that is at most the length of the child, and the child's elements up to
that prefix are non-decreasing when the call is made. -/
theorem children_prefix (rnd : Nat → Nat) (past : Int) (pos : Nat) (list : List Int) (p : Nat)
    (hp : p ≤ list.length) (hpre : Ascending (list.take p))
    (hrec : (specialcase list p).ok = false) :
    ∃ s, split rnd past pos list p = .ok s ∧
      (∀ fuel, sort rnd (fuel + 1) past pos list p =
        match sort rnd fuel (s.pivot past) s.pos s.left s.leftPre with
        | .error e => .error e
        | .ok a =>
          match sort rnd fuel past a.pos s.right s.rightPre with
          | .error e => .error e
          | .ok b => .ok ⟨a.list ++ s.run ++ b.list, b.pos, s.ops + a.ops + b.ops⟩) ∧
      s.leftPre ≤ s.left.length ∧ Ascending (s.left.take s.leftPre) ∧
      s.rightPre ≤ s.right.length ∧ Ascending (s.right.take s.rightPre) := by
  obtain ⟨hn, hne⟩ := specialcase_not_ok list p hrec
  obtain ⟨s, hs, hk, hord⟩ := split_spec rnd past pos list p hn (by omega)
  have ho := hord hpre
  refine ⟨s, hs, fun fuel => sort_step rnd fuel past pos list p s hrec hs, ?_,
    split_left_asc past list s hk ho, ?_, split_right_asc past list s hk ho⟩
  · rw [split_left_length list s hk]; exact hk.leftPre_le
  · rw [split_right_length list s hk]; exact hk.rightPre_le

theorem children_prefix_witness :
    ∃ s, split (fun i => 4 * i + 1) 0 0
        [1, 3, 3, 6, 2, 8, 1, 8, 2, 8, 4, 5, 9, 0, 4, 5, 2, 3] 4 = .ok s ∧
      (∀ fuel, sort (fun i => 4 * i + 1) (fuel + 1) 0 0
          [1, 3, 3, 6, 2, 8, 1, 8, 2, 8, 4, 5, 9, 0, 4, 5, 2, 3] 4 =
        match sort (fun i => 4 * i + 1) fuel (s.pivot 0) s.pos s.left s.leftPre with
        | .error e => .error e
        | .ok a =>
          match sort (fun i => 4 * i + 1) fuel 0 a.pos s.right s.rightPre with
          | .error e => .error e
          | .ok b => .ok ⟨a.list ++ s.run ++ b.list, b.pos, s.ops + a.ops + b.ops⟩) ∧
      s.leftPre ≤ s.left.length ∧ Ascending (s.left.take s.leftPre) ∧
      s.rightPre ≤ s.right.length ∧ Ascending (s.right.take s.rightPre) :=
  children_prefix (fun i => 4 * i + 1) 0 0
    [1, 3, 3, 6, 2, 8, 1, 8, 2, 8, 4, 5, 9, 0, 4, 5, 2, 3] 4 (by decide) (by decide) (by decide)

/-- C16: with `r = prefix - left_prefix` (the prefix as it stands after the
bootstrap step) and `k = hi - lo` the length of the excluded pivot run, the
prefix handed to the right child is exactly `r - k` when `k < r` and exactly 0
otherwise. -/
theorem right_prefix_exact (rnd : Nat → Nat) (past : Int) (pos : Nat) (list : List Int)
    (p : Nat) (hp : p ≤ list.length) (hrec : (specialcase list p).ok = false) :
    ∃ b s, bootstrap rnd pos list p = .ok b ∧ split rnd past pos list p = .ok s ∧
      b.pre = (if p < min_prefix then init_prefix else p) ∧
      s.run.length = s.hi - s.lo ∧
      (s.hi - s.lo < b.pre - s.leftPre → s.rightPre = (b.pre - s.leftPre) - (s.hi - s.lo)) ∧
      (b.pre - s.leftPre ≤ s.hi - s.lo → s.rightPre = 0) := by
  obtain ⟨hn, hne⟩ := specialcase_not_ok list p hrec
  obtain ⟨b, q, s, hb, -, hs, -, -, -, -, -, -, -, -, -, -, hrp⟩ :=
    split_shape rnd past pos list p hn (by omega)
  obtain ⟨s2, hs2, hk, -⟩ := split_spec rnd past pos list p hn (by omega)
  have hss : s2 = s := by
    rw [hs] at hs2
    cases hs2
    rfl
  subst hss
  have hlohi := hk.lohi
  obtain ⟨b2, hb2, -, -, -, -, hsmall, hbig⟩ := bootstrap_spec rnd pos list p hn (by omega)
  have hbb : b2 = b := by
    rw [hb] at hb2
    cases hb2
    rfl
  subst hbb
  refine ⟨b2, s2, hb, hs, ?_, split_run_length list s2 hk, ?_, ?_⟩
  · by_cases h3 : p < 3
    · have : p < min_prefix := h3
      rw [if_pos this]
      exact (hsmall h3).1
    · have : ¬ p < min_prefix := h3
      rw [if_neg this, hbig (by omega)]
  · intro h
    rw [hrp, if_pos (by omega)]
    omega
  · intro h
    rw [hrp, if_neg (by omega)]

theorem right_prefix_exact_witness :
    ∃ b s, bootstrap (fun _ => 0) 0
        [1, 2, 3, 4, 5, 6, 7, 8, 9, 10, 11, 12, 13, 14, 15, 8] 0 = .ok b ∧
      split (fun _ => 0) 0 0 [1, 2, 3, 4, 5, 6, 7, 8, 9, 10, 11, 12, 13, 14, 15, 8] 0 = .ok s ∧
      b.pre = (if 0 < min_prefix then init_prefix else 0) ∧
      s.run.length = s.hi - s.lo ∧
      (s.hi - s.lo < b.pre - s.leftPre → s.rightPre = (b.pre - s.leftPre) - (s.hi - s.lo)) ∧
      (b.pre - s.leftPre ≤ s.hi - s.lo → s.rightPre = 0) :=
  right_prefix_exact (fun _ => 0) 0 0 [1, 2, 3, 4, 5, 6, 7, 8, 9, 10, 11, 12, 13, 14, 15, 8] 0
    (by decide) (by decide)

/-! ## Pivot selector -/

/-- In a sorted prefix the rewind keeps the value it started from. -/
theorem rewind_val (past : Int) (l : List Int) (p k : Nat) (hk : k < p)
    (hasc : ∀ i j, i < j → j < p → rd past l i ≤ rd past l j) :
    rd past l (rewind past l k) = rd past l k := by
  induction k with
  | zero => rfl
  | succ k ih =>
    simp only [rewind]
    split
    · rename_i hc
      have h1 := ih (by omega)
      have h2 := hasc k (k + 1) (by omega) hk
      omega
    · rfl

/-- C15: for every list whose first `p` elements are non-decreasing, `p ≥ 3`,
the rewind started at `p / 2` stops at the least index whose element equals the
element at `p / 2` (index 0 when the whole prefix is one repeated value); every
prefix element before that index is strictly less than the pivot there and every
prefix element from it on is not less. -/
theorem pivot_first_occurrence (past : Int) (list : List Int) (p : Nat) (hp3 : 3 ≤ p)
    (hp : p ≤ list.length) (hpre : Ascending (list.take p)) :
    rewind past list (p / 2) ≤ p / 2 ∧
      rd past list (rewind past list (p / 2)) = rd past list (p / 2) ∧
      (∀ j, j < rewind past list (p / 2) → rd past list j ≠ rd past list (p / 2)) ∧
      (∀ j, j < rewind past list (p / 2) →
        rd past list j < rd past list (rewind past list (p / 2))) ∧
      (∀ j, rewind past list (p / 2) ≤ j → j < p →
        rd past list (rewind past list (p / 2)) ≤ rd past list j) ∧
      ((∀ j, j < p → rd past list j = rd past list 0) → rewind past list (p / 2) = 0) := by
  have hA := (ascending_take_iff past list p hp).1 hpre
  have hle := rewind_le past list (p / 2)
  have hval := rewind_val past list p (p / 2) (by omega) hA
  have hlt := rewind_lt past list p (p / 2) (by omega) hA
  refine ⟨hle, hval, ?_, hlt, ?_, ?_⟩
  · intro j hj
    have := hlt j hj
    omega
  · intro j h1 h2
    by_cases h : rewind past list (p / 2) = j
    · rw [h]
    · exact hA _ _ (by omega) h2
  · intro hall
    by_contra hc
    have h1 := hlt 0 (by omega)
    have h2 := hall (rewind past list (p / 2)) (by omega)
    omega

theorem pivot_first_occurrence_witness :
    rewind 0 [1, 4, 4, 4, 4, 6, 7, 0, 3] (7 / 2) ≤ 7 / 2 ∧
      rd 0 [1, 4, 4, 4, 4, 6, 7, 0, 3] (rewind 0 [1, 4, 4, 4, 4, 6, 7, 0, 3] (7 / 2)) =
        rd 0 [1, 4, 4, 4, 4, 6, 7, 0, 3] (7 / 2) ∧
      (∀ j, j < rewind 0 [1, 4, 4, 4, 4, 6, 7, 0, 3] (7 / 2) →
        rd 0 [1, 4, 4, 4, 4, 6, 7, 0, 3] j ≠ rd 0 [1, 4, 4, 4, 4, 6, 7, 0, 3] (7 / 2)) ∧
      (∀ j, j < rewind 0 [1, 4, 4, 4, 4, 6, 7, 0, 3] (7 / 2) →
        rd 0 [1, 4, 4, 4, 4, 6, 7, 0, 3] j <
          rd 0 [1, 4, 4, 4, 4, 6, 7, 0, 3] (rewind 0 [1, 4, 4, 4, 4, 6, 7, 0, 3] (7 / 2))) ∧
      (∀ j, rewind 0 [1, 4, 4, 4, 4, 6, 7, 0, 3] (7 / 2) ≤ j → j < 7 →
        rd 0 [1, 4, 4, 4, 4, 6, 7, 0, 3] (rewind 0 [1, 4, 4, 4, 4, 6, 7, 0, 3] (7 / 2)) ≤
          rd 0 [1, 4, 4, 4, 4, 6, 7, 0, 3] j) ∧
      ((∀ j, j < 7 → rd 0 [1, 4, 4, 4, 4, 6, 7, 0, 3] j = rd 0 [1, 4, 4, 4, 4, 6, 7, 0, 3] 0) →
        rewind 0 [1, 4, 4, 4, 4, 6, 7, 0, 3] (7 / 2) = 0) :=
  pivot_first_occurrence 0 [1, 4, 4, 4, 4, 6, 7, 0, 3] 7 (by decide) (by decide) (by decide)

/-! ## Prefix bootstrapper -/

theorem randint_range (i n raw : Nat) (h : i < n) :
    i ≤ randint i n raw ∧ randint i n raw < n := by
  unfold randint uniform_int_distribution
  have hpos : 0 < n - 1 - i + 1 := by omega
  have := Nat.mod_lt raw hpos
  constructor <;> omega

theorem shuffleDraws_length (rnd : Nat → Nat) (k i pos : Nat) (l : List Int) :
    (shuffleDraws rnd k i pos l).length = k := by
  induction k generalizing i pos l with
  | zero => rfl
  | succ k ih => simp only [shuffleDraws, List.length_cons, ih]

/-- The swaps of the bootstrap loop are the swaps of the recorded pairs. -/
theorem shuffle_eq_foldl (rnd : Nat → Nat) (k i pos : Nat) (l : List Int) :
    (shuffle rnd k i pos l).1 =
      (shuffleDraws rnd k i pos l).foldl (fun acc ij => swapAt acc ij.1 ij.2) l := by
  induction k generalizing i pos l with
  | zero => rfl
  | succ k ih => simp only [shuffle, shuffleDraws, List.foldl_cons, ih]

theorem shuffleDraws_range (rnd : Nat → Nat) (k i pos : Nat) (l : List Int)
    (h : i + k ≤ l.length) :
    ∀ ij ∈ shuffleDraws rnd k i pos l,
      i ≤ ij.1 ∧ ij.1 < i + k ∧ ij.1 ≤ ij.2 ∧ ij.2 < l.length := by
  induction k generalizing i pos l with
  | zero => intro ij hij; simp [shuffleDraws] at hij
  | succ k ih =>
    intro ij hij
    simp only [shuffleDraws, List.mem_cons] at hij
    rcases hij with rfl | hij
    · have := randint_range i l.length (rnd pos) (by omega)
      exact ⟨le_refl _, by omega, this.1, this.2⟩
    · have := ih (i + 1) (pos + 1) (swapAt l i (randint i l.length (rnd pos)))
        (by rw [length_swapAt]; omega) ij hij
      rw [length_swapAt] at this
      exact ⟨by omega, by omega, this.2.2.1, this.2.2.2⟩

theorem shuffleDraws_fst (rnd : Nat → Nat) (k i pos : Nat) (l : List Int) :
    (shuffleDraws rnd k i pos l).map Prod.fst = List.range' i k := by
  induction k generalizing i pos l with
  | zero => rfl
  | succ k ih => simp only [shuffleDraws, List.map_cons, List.range'_succ, ih]

/-- C17: whenever `sort` is entered with an inherited prefix below 3 on a range
that `specialcase` does not handle, `new_prefix = min(15, |list|)` is 15, the
loop runs `i` from the prefix up to 15 and each drawn index `j` lies in
`[i, |list|)`; after the step the prefix is 15, the first 15 elements are
non-decreasing and the list is a permutation of what it was before the step. -/
theorem bootstrap_establishes_prefix (rnd : Nat → Nat) (pos : Nat) (list : List Int) (p : Nat)
    (hrec : (specialcase list p).ok = false) (h3 : p < min_prefix) :
    16 ≤ list.length ∧ min init_prefix list.length = 15 ∧
      (shuffleDraws rnd (15 - p) p pos list).map Prod.fst = List.range' p (15 - p) ∧
      (∀ ij ∈ shuffleDraws rnd (15 - p) p pos list, ij.1 ≤ ij.2 ∧ ij.2 < list.length) ∧
      (shuffle rnd (15 - p) p pos list).1 =
        (shuffleDraws rnd (15 - p) p pos list).foldl (fun acc ij => swapAt acc ij.1 ij.2) list ∧
      ∃ b, bootstrap rnd pos list p = .ok b ∧ b.pre = 15 ∧ b.pos = pos + (15 - p) ∧
        Ascending (b.list.take 15) ∧ b.list.Perm list := by
  obtain ⟨hn, hne⟩ := specialcase_not_ok list p hrec
  have h3' : p < 3 := h3
  have hmin : min init_prefix list.length = 15 := by simp [ init_prefix]; omega
  refine ⟨hn, hmin, shuffleDraws_fst rnd (15 - p) p pos list, ?_,
    shuffle_eq_foldl rnd (15 - p) p pos list, ?_⟩
  · intro ij hij
    have := shuffleDraws_range rnd (15 - p) p pos list (by omega) ij hij
    exact ⟨this.2.2.1, this.2.2.2⟩
  · have hperm := shuffle_perm rnd (15 - p) p pos list
    have hlen : ((shuffle rnd (15 - p) p pos list).1.take 15).length = 15 := by
      rw [List.length_take, hperm.length_eq]; omega
    obtain ⟨net, _, hsc, hasc⟩ :=
      specialcase_small ((shuffle rnd (15 - p) p pos list).1.take 15) p (by omega) (by omega)
    have hnlen : (applyNetwork net ((shuffle rnd (15 - p) p pos list).1.take 15)).length
        = 15 := by
      rw [(applyNetwork_perm net _).length_eq, hlen]
    have hb : bootstrap rnd pos list p = .ok
        ⟨applyNetwork net ((shuffle rnd (15 - p) p pos list).1.take 15) ++
          (shuffle rnd (15 - p) p pos list).1.drop 15, 15,
          (shuffle rnd (15 - p) p pos list).2, (15 - p) + net.length⟩ := by
      unfold bootstrap
      rw [if_pos h3, hmin]
      simp only [hsc]
      rfl
    refine ⟨_, hb, rfl, shuffle_pos rnd (15 - p) p pos list, ?_, ?_⟩
    · show Ascending ((applyNetwork net ((shuffle rnd (15 - p) p pos list).1.take 15) ++
        (shuffle rnd (15 - p) p pos list).1.drop 15).take 15)
      rw [List.take_left' hnlen]
      exact hasc
    · show (applyNetwork net ((shuffle rnd (15 - p) p pos list).1.take 15) ++
        (shuffle rnd (15 - p) p pos list).1.drop 15).Perm list
      refine List.Perm.trans ?_ hperm
      conv => rhs; rw [← List.take_append_drop 15 (shuffle rnd (15 - p) p pos list).1]
      exact (applyNetwork_perm net _).append_right _

theorem bootstrap_establishes_prefix_witness :
    16 ≤ [3, 1, 4, 1, 5, 9, 2, 6, 5, 3, 5, 8, 9, 7, 9, 3, 2, (3 : Int)].length ∧
      min init_prefix [3, 1, 4, 1, 5, 9, 2, 6, 5, 3, 5, 8, 9, 7, 9, 3, 2, (3 : Int)].length = 15 ∧
      (shuffleDraws (fun i => 3 * i + 2) (15 - 2) 2 0
        [3, 1, 4, 1, 5, 9, 2, 6, 5, 3, 5, 8, 9, 7, 9, 3, 2, 3]).map Prod.fst =
          List.range' 2 (15 - 2) ∧
      (∀ ij ∈ shuffleDraws (fun i => 3 * i + 2) (15 - 2) 2 0
          [3, 1, 4, 1, 5, 9, 2, 6, 5, 3, 5, 8, 9, 7, 9, 3, 2, 3],
        ij.1 ≤ ij.2 ∧
          ij.2 < [3, 1, 4, 1, 5, 9, 2, 6, 5, 3, 5, 8, 9, 7, 9, 3, 2, (3 : Int)].length) ∧
      (shuffle (fun i => 3 * i + 2) (15 - 2) 2 0
          [3, 1, 4, 1, 5, 9, 2, 6, 5, 3, 5, 8, 9, 7, 9, 3, 2, 3]).1 =
        (shuffleDraws (fun i => 3 * i + 2) (15 - 2) 2 0
          [3, 1, 4, 1, 5, 9, 2, 6, 5, 3, 5, 8, 9, 7, 9, 3, 2, 3]).foldl
          (fun acc ij => swapAt acc ij.1 ij.2)
          [3, 1, 4, 1, 5, 9, 2, 6, 5, 3, 5, 8, 9, 7, 9, 3, 2, 3] ∧
      ∃ b, bootstrap (fun i => 3 * i + 2) 0
          [3, 1, 4, 1, 5, 9, 2, 6, 5, 3, 5, 8, 9, 7, 9, 3, 2, 3] 2 = .ok b ∧
        b.pre = 15 ∧ b.pos = 0 + (15 - 2) ∧ Ascending (b.list.take 15) ∧
        b.list.Perm [3, 1, 4, 1, 5, 9, 2, 6, 5, 3, 5, 8, 9, 7, 9, 3, 2, 3] :=
  bootstrap_establishes_prefix (fun i => 3 * i + 2) 0
    [3, 1, 4, 1, 5, 9, 2, 6, 5, 3, 5, 8, 9, 7, 9, 3, 2, 3] 2 (by decide) (by decide)

/-! ## The excluded pivot run -/

theorem rd_append_mid (past : Int) (a m b : List Int) (i : Nat) (h1 : a.length ≤ i)
    (h2 : i < a.length + m.length) :
    rd past (a ++ m ++ b) i = rd past m (i - a.length) := by
  unfold rd
  rw [List.getElem?_append_left (by simp; omega), List.getElem?_append_right h1]

/-- C11: in every partitioning call with a sorted inherited prefix, every
element of the excluded pivot run `[lo, hi)` equals the pivot value, the run
follows the left zone directly, the two recursive calls get only the left and
the right zone, and in the list that `sort` returns the cells `[lo, hi)` are
the run as it was and hold the pivot value. -/
theorem pivot_run_final (rnd : Nat → Nat) (fuel : Nat) (past : Int) (pos : Nat)
    (list : List Int) (p : Nat) (hf : list.length ≤ fuel) (hp : p ≤ list.length)
    (hpre : Ascending (list.take p)) (hrec : (specialcase list p).ok = false) :
    ∃ s a b, split rnd past pos list p = .ok s ∧
      sort rnd fuel (s.pivot past) s.pos s.left s.leftPre = .ok a ∧
      sort rnd fuel past a.pos s.right s.rightPre = .ok b ∧
      sort rnd (fuel + 1) past pos list p =
        .ok ⟨a.list ++ s.run ++ b.list, b.pos, s.ops + a.ops + b.ops⟩ ∧
      s.left ++ s.run ++ s.right = s.list ∧ s.left.length = s.lo ∧ a.list.length = s.lo ∧
      s.run.length = s.hi - s.lo ∧ 1 ≤ s.run.length ∧
      (∀ x ∈ s.run, x = s.pivot past) ∧
      (∀ i, s.lo ≤ i → i < s.hi → rd past s.list i = s.pivot past) ∧
      (∀ i, s.lo ≤ i → i < s.hi →
        rd past (a.list ++ s.run ++ b.list) i = rd past s.list i) ∧
      (∀ i, s.lo ≤ i → i < s.hi → rd past (a.list ++ s.run ++ b.list) i = s.pivot past) := by
  obtain ⟨hn, hne⟩ := specialcase_not_ok list p hrec
  obtain ⟨s, hs, hk, hord⟩ := split_spec rnd past pos list p hn (by omega)
  have ho := hord hpre
  have hlohi := hk.lohi
  have hhin := hk.hin
  have hlen : s.list.length = list.length := hk.perm.length_eq
  have hl := split_left_length list s hk
  have hr := split_run_length list s hk
  obtain ⟨a, ha, haperm, -⟩ := sort_spec rnd fuel (s.pivot past) s.pos s.left s.leftPre
    (by rw [hl]; omega) (by rw [hl]; exact hk.leftPre_le)
  obtain ⟨b, hb, -, -⟩ := sort_spec rnd fuel past a.pos s.right s.rightPre
    (by rw [split_right_length list s hk]; omega)
    (by rw [split_right_length list s hk]; exact hk.rightPre_le)
  have hal : a.list.length = s.lo := by rw [haperm.length_eq, hl]
  have hstep := sort_step rnd fuel past pos list p s hrec hs
  simp only [ha, hb] at hstep
  have hparts := split_parts s (by omega)
  have hsame : ∀ i, s.lo ≤ i → i < s.hi →
      rd past (a.list ++ s.run ++ b.list) i = rd past s.list i := by
    intro i h1 h2
    rw [rd_append_mid past a.list s.run b.list i (by omega) (by omega)]
    conv => rhs; rw [← hparts]
    rw [rd_append_mid past s.left s.run s.right i (by omega) (by omega), hal, hl]
  refine ⟨s, a, b, hs, ha, hb, hstep, hparts, hl, hal, hr, by omega,
    split_run_eq past s ho, ho.run_eq, hsame, ?_⟩
  intro i h1 h2
  rw [hsame i h1 h2]
  exact ho.run_eq i h1 h2

theorem pivot_run_final_witness :
    ∃ s a b, split (fun i => 9 * i + 4) 0 0
        [1, 5, 5, 8, 5, 0, 7, 5, 2, 9, 5, 3, 6, 5, 1, 4, 5, 8] 4 = .ok s ∧
      sort (fun i => 9 * i + 4) 18 (s.pivot 0) s.pos s.left s.leftPre = .ok a ∧
      sort (fun i => 9 * i + 4) 18 0 a.pos s.right s.rightPre = .ok b ∧
      sort (fun i => 9 * i + 4) (18 + 1) 0 0
          [1, 5, 5, 8, 5, 0, 7, 5, 2, 9, 5, 3, 6, 5, 1, 4, 5, 8] 4 =
        .ok ⟨a.list ++ s.run ++ b.list, b.pos, s.ops + a.ops + b.ops⟩ ∧
      s.left ++ s.run ++ s.right = s.list ∧ s.left.length = s.lo ∧ a.list.length = s.lo ∧
      s.run.length = s.hi - s.lo ∧ 1 ≤ s.run.length ∧
      (∀ x ∈ s.run, x = s.pivot 0) ∧
      (∀ i, s.lo ≤ i → i < s.hi → rd 0 s.list i = s.pivot 0) ∧
      (∀ i, s.lo ≤ i → i < s.hi → rd 0 (a.list ++ s.run ++ b.list) i = rd 0 s.list i) ∧
      (∀ i, s.lo ≤ i → i < s.hi → rd 0 (a.list ++ s.run ++ b.list) i = s.pivot 0) :=
  pivot_run_final (fun i => 9 * i + 4) 18 0 0
    [1, 5, 5, 8, 5, 0, 7, 5, 2, 9, 5, 3, 6, 5, 1, 4, 5, 8] 4
    (by decide) (by decide) (by decide) (by decide)

/-! ## Prefix rebalancer -/

theorem slots_length (l : List Int) (i j : Nat) (hj : j ≤ l.length) :
    (slots l i j).length = j - i := by
  simp only [slots, List.length_take, List.length_drop]
  omega

theorem getElem?_slots (l : List Int) (i j t : Nat) (ht : t < j - i) :
    (slots l i j)[t]? = l[i + t]? := by
  simp only [slots]
  rw [List.getElem?_take_of_lt ht, List.getElem?_drop]

theorem slots_eq_of_rd (past : Int) (l1 l2 : List Int) (a c len : Nat)
    (h1 : a + len ≤ l1.length) (h2 : c + len ≤ l2.length)
    (h : ∀ t, t < len → rd past l1 (a + t) = rd past l2 (c + t)) :
    slots l1 a (a + len) = slots l2 c (c + len) := by
  apply List.ext_getElem?
  intro t
  by_cases ht : t < len
  · rw [getElem?_slots l1 a (a + len) t (by omega), getElem?_slots l2 c (c + len) t (by omega),
      rd_of_lt past l1 (a + t) (by omega), rd_of_lt past l2 (c + t) (by omega), h t ht]
  · rw [List.getElem?_eq_none (by rw [slots_length l1 a (a + len) h1]; omega),
      List.getElem?_eq_none (by rw [slots_length l2 c (c + len) h2]; omega)]

theorem slots_split (l : List Int) (i j k : Nat) (hij : i ≤ j) (hjk : j ≤ k) :
    slots l i k = slots l i j ++ slots l j k := by
  simp only [slots]
  have e1 : k - i = (j - i) + (k - j) := by omega
  have e2 : l.drop j = (l.drop i).drop (j - i) := by
    rw [List.drop_drop]; congr 1; omega
  rw [e1, List.take_add, e2]

theorem slots_whole (l : List Int) : slots l 0 l.length = l := by
  simp [slots]

theorem slots_four (l : List Int) (a b c : Nat) (hab : a ≤ b) (hbc : b ≤ c)
    (hc : c ≤ l.length) :
    l = slots l 0 a ++ (slots l a b ++ (slots l b c ++ slots l c l.length)) := by
  conv => lhs; rw [← slots_whole l]
  rw [slots_split l 0 a l.length (by omega) (by omega),
    slots_split l a b l.length hab (by omega), slots_split l b c l.length hbc hc]

/-- C14: with `r = prefix - left_prefix` and `b` the boundary that the low
pointer reached, the relocation loop leaves `lo = b - r` and
`unsorted = left_prefix`; the cells `[b - r, b)` hold the former cells
`[left_prefix, prefix)` in their order, the cells `[left_prefix, b - r)` hold the
elements of the former cells `[prefix, b)`, and every cell outside
`[left_prefix, b)` is unchanged.  This needs no bound on `b - prefix`, so it
covers the case where the two blocks overlap. -/
theorem relocate_blocks (list : List Int) (lp p b : Nat) (h1 : lp ≤ p) (h2 : p ≤ b)
    (h3 : b ≤ list.length) :
    (relocate (p - lp) list b p).2.1 = b - (p - lp) ∧
      (relocate (p - lp) list b p).2.2 = lp ∧
      (relocate (p - lp) list b p).1.length = list.length ∧
      slots (relocate (p - lp) list b p).1 (b - (p - lp)) b = slots list lp p ∧
      (slots (relocate (p - lp) list b p).1 lp (b - (p - lp))).Perm (slots list p b) ∧
      (∀ pivot, (∀ x ∈ slots list p b, x < pivot) →
        ∀ x ∈ slots (relocate (p - lp) list b p).1 lp (b - (p - lp)), x < pivot) ∧
      (Ascending (list.take p) →
        Ascending (slots (relocate (p - lp) list b p).1 (b - (p - lp)) b)) ∧
      (∀ i, i < lp ∨ b ≤ i → (relocate (p - lp) list b p).1[i]? = list[i]?) := by
  obtain ⟨c1, c2, c3, c4, c5, c6, -⟩ := relocate_spec 0 (p - lp) list b p (by omega) h2 h3
  generalize relocate (p - lp) list b p = m at c1 c2 c3 c4 c5 c6 ⊢
  have hlen : m.1.length = list.length := c3.length_eq
  have hblock : slots m.1 (b - (p - lp)) b = slots list lp p := by
    have ea : b - (p - lp) + (p - lp) = b := by omega
    have ec : lp + (p - lp) = p := by omega
    have := slots_eq_of_rd 0 m.1 list (b - (p - lp)) lp (p - lp) (by omega) (by omega)
      (fun t ht => by
        rw [c6 _ (by omega) (by omega)]
        congr 1
        omega)
    rw [ea, ec] at this
    exact this
  have hlow : slots m.1 0 lp = slots list 0 lp := by
    have := slots_eq_of_rd 0 m.1 list 0 0 lp (by omega) (by omega)
      (fun t ht => by simpa using c4 t (by omega))
    simpa using this
  have hhigh : slots m.1 b m.1.length = slots list b list.length := by
    have ea : b + (list.length - b) = list.length := by omega
    have := slots_eq_of_rd 0 m.1 list b b (list.length - b) (by omega) (by omega)
      (fun t _ => c5 _ (by omega))
    rw [ea] at this
    rw [hlen]
    exact this
  have hperm : (slots m.1 lp (b - (p - lp))).Perm (slots list p b) := by
    have d1 := slots_four m.1 lp (b - (p - lp)) b (by omega) (by omega) (by omega)
    have d2 := slots_four list lp p b h1 h2 h3
    have hp := c3
    rw [d1, d2, hlow, hblock, hhigh] at hp
    have hp2 := (List.perm_append_left_iff _).1 hp
    rw [← List.append_assoc, ← List.append_assoc] at hp2
    have hp3 := (List.perm_append_right_iff _).1 hp2
    exact (List.perm_append_right_iff _).1 (hp3.trans List.perm_append_comm)
  refine ⟨c1, by omega, hlen, hblock, hperm, ?_, ?_, ?_⟩
  · intro pivot hall x hx
    exact hall x (hperm.mem_iff.1 hx)
  · intro hasc
    rw [hblock]
    have hsub : (slots list lp p).Sublist (list.take p) := by
      have e : list.take p = slots list 0 p := by simp [slots]
      rw [e, slots_split list 0 lp p (by omega) h1]
      exact List.sublist_append_right _ _
    exact List.Pairwise.sublist hsub hasc
  · intro i hi
    rcases hi with hi | hi
    · by_cases hil : i < list.length
      · rw [rd_of_lt 0 m.1 i (by omega), rd_of_lt 0 list i hil, c4 i (by omega)]
      · rw [List.getElem?_eq_none (by omega), List.getElem?_eq_none (by omega)]
    · by_cases hil : i < list.length
      · rw [rd_of_lt 0 m.1 i (by omega), rd_of_lt 0 list i hil, c5 i hi]
      · rw [List.getElem?_eq_none (by omega), List.getElem?_eq_none (by omega)]

theorem relocate_blocks_witness :
    (relocate (5 - 1) [1, 2, 3, 4, 5, 0, 9, 9] 6 5).2.1 = 6 - (5 - 1) ∧
      (relocate (5 - 1) [1, 2, 3, 4, 5, 0, 9, 9] 6 5).2.2 = 1 ∧
      (relocate (5 - 1) [1, 2, 3, 4, 5, 0, 9, 9] 6 5).1.length = [1, 2, 3, 4, 5, 0, 9, (9 : Int)].length ∧
      slots (relocate (5 - 1) [1, 2, 3, 4, 5, 0, 9, 9] 6 5).1 (6 - (5 - 1)) 6 = slots [1, 2, 3, 4, 5, 0, 9, 9] 1 5 ∧
      (slots (relocate (5 - 1) [1, 2, 3, 4, 5, 0, 9, 9] 6 5).1 1 (6 - (5 - 1))).Perm (slots [1, 2, 3, 4, 5, 0, 9, 9] 5 6) ∧
      (∀ pivot, (∀ x ∈ slots [1, 2, 3, 4, 5, 0, 9, 9] 5 6, x < pivot) →
        ∀ x ∈ slots (relocate (5 - 1) [1, 2, 3, 4, 5, 0, 9, 9] 6 5).1 1 (6 - (5 - 1)), x < pivot) ∧
      (Ascending (List.take 5 [1, 2, 3, 4, 5, 0, 9, 9]) →
        Ascending (slots (relocate (5 - 1) [1, 2, 3, 4, 5, 0, 9, 9] 6 5).1 (6 - (5 - 1)) 6)) ∧
      (∀ i, i < 1 ∨ 6 ≤ i → (relocate (5 - 1) [1, 2, 3, 4, 5, 0, 9, 9] 6 5).1[i]? = ([1, 2, 3, 4, 5, 0, 9, 9] : List Int)[i]?) :=
  relocate_blocks [1, 2, 3, 4, 5, 0, 9, 9] 1 5 6 (by decide) (by decide) (by decide)

/-! ## The verifier `is_sorted` -/

theorem rd_irrel (a b : Int) (l : List Int) (i : Nat) (h : i < l.length) :
    rd a l i = rd b l i := by
  simp [rd, List.getElem?_eq_getElem h]

theorem sortedRow_iff (l : List Int) (i fuel j : Nat) (prev : Int) (acc : Bool) :
    sortedRow l i fuel j prev acc = true ↔
      acc = true ∧
      (0 < fuel → j < stride → i + j < l.length → ¬ rd 0 l (i + j) < prev) ∧
      ∀ t, j < t → t < j + fuel → t < stride → i + t < l.length →
        ¬ rd 0 l (i + t) < rd 0 l (i + t - 1) := by
  induction fuel generalizing j prev acc with
  | zero =>
    simp only [sortedRow]
    constructor
    · intro h
      exact ⟨h, fun h0 => by omega, fun t h1 h2 => by omega⟩
    · intro h
      exact h.1
  | succ fuel ih =>
    simp only [sortedRow]
    split
    · rename_i hc
      rw [ih, rd_irrel prev 0 l (i + j) hc.2]
      constructor
      · rintro ⟨h1, h2, h3⟩
        simp only [Bool.and_eq_true, Bool.not_eq_true', decide_eq_false_iff_not] at h1
        refine ⟨h1.1, fun _ _ _ => h1.2, ?_⟩
        intro t t1 t2 t3 t4
        by_cases ht : t = j + 1
        · subst ht
          have := h2 (by omega) t3 (by omega)
          simpa using this
        · exact h3 t (by omega) (by omega) t3 t4
      · rintro ⟨h1, h2, h3⟩
        refine ⟨?_, ?_, fun t t1 t2 t3 t4 => h3 t (by omega) (by omega) t3 t4⟩
        · have := h2 (by omega) hc.1 hc.2
          simp only [Bool.and_eq_true, Bool.not_eq_true', decide_eq_false_iff_not]
          exact ⟨h1, this⟩
        · intro h0 hj hij
          have := h3 (j + 1) (by omega) (by omega) hj (by omega)
          simpa using this
    · rename_i hc
      constructor
      · intro h
        refine ⟨h, fun _ h1 h2 => absurd ⟨h1, h2⟩ hc, ?_⟩
        intro t t1 t2 t3 t4
        exact absurd ⟨by omega, by omega⟩ hc
      · intro h
        exact h.1

theorem sortedRows_iff (l : List Int) (fuel i : Nat) (acc : Bool) :
    sortedRows l fuel i acc = true ↔
      acc = true ∧
      ∀ k, i ≤ k → k + 1 < i + 16 * fuel → k + 1 < l.length → (k + 1 - i) % 16 ≠ 0 →
        ¬ rd 0 l (k + 1) < rd 0 l k := by
  have hs : stride = 16 := rfl
  induction fuel generalizing i acc with
  | zero =>
    simp only [sortedRows]
    constructor
    · intro h
      exact ⟨h, fun k h1 h2 => by omega⟩
    · intro h
      exact h.1
  | succ fuel ih =>
    simp only [sortedRows]
    split
    · rename_i hc
      refine (ih (i + stride) _).trans ?_
      have hrow := sortedRow_iff l i stride 0 (rd 0 l i) true
      rw [hs] at hrow
      constructor
      · rintro ⟨h1, h2⟩
        have hr : sortedRow l i stride 0 (rd 0 l i) true = true := by
          cases hb : sortedRow l i stride 0 (rd 0 l i) true
          · rw [hb] at h1; simp at h1
          · rfl
        have hacc : acc = true := by
          rw [hr] at h1; simpa using h1
        rw [hs] at hr
        refine ⟨hacc, ?_⟩
        intro k k1 k2 k3 k4
        by_cases hk : k + 1 < i + 16
        · have := (hrow.1 hr).2.2 (k + 1 - i) (by omega) (by omega) (by omega) (by omega)
          have e1 : i + (k + 1 - i) = k + 1 := by omega
          have e2 : k + 1 - 1 = k := by omega
          rw [e1, e2] at this
          exact this
        · rw [hs] at h2
          exact h2 k (by omega) (by omega) k3 (by omega)
      · rintro ⟨h1, h2⟩
        have hr : sortedRow l i stride 0 (rd 0 l i) true = true := by
          rw [hs, hrow]
          refine ⟨rfl, fun _ _ _ => ?_, ?_⟩
          · simp
          · intro t t1 t2 t3 t4
            have := h2 (i + t - 1) (by omega) (by omega) (by omega) (by omega)
            have e1 : i + t - 1 + 1 = i + t := by omega
            rw [e1] at this
            exact this
        refine ⟨by rw [hr, h1]; rfl, ?_⟩
        intro k k1 k2 k3 k4
        rw [hs] at k1 k2 k4
        exact h2 k (by omega) (by omega) k3 (by omega)
    · rename_i hc
      constructor
      · intro h
        exact ⟨h, fun k k1 k2 k3 => by omega⟩
      · intro h
        exact h.1

/-- What `is_sorted` checks: every element that does not start a row of 16 is
not less than the element before it. -/
theorem is_sorted_iff_rows (l : List Int) :
    is_sorted l = true ↔
      ∀ k, k + 1 < l.length → (k + 1) % 16 ≠ 0 → rd 0 l k ≤ rd 0 l (k + 1) := by
  unfold is_sorted
  rw [sortedRows_iff]
  constructor
  · rintro ⟨-, h⟩ k k1 k2
    have := h k (Nat.zero_le _) (by omega) k1 (by simpa using k2)
    omega
  · intro h
    refine ⟨rfl, ?_⟩
    intro k _ _ k3 k4
    have := h k k3 (by simpa using k4)
    omega

/-- A non-decreasing list passes `is_sorted`. -/
theorem is_sorted_of_ascending (l : List Int) (h : Ascending l) : is_sorted l = true := by
  rw [is_sorted_iff_rows]
  intro k k1 _
  have hA := (ascending_take_iff 0 l l.length (le_refl _)).1 (by simpa using h)
  exact hA k (k + 1) (by omega) k1

/-- C18 fails on the code: `is_sorted` restarts from `prev = list[i]` at every
row of 16, so the element at index 16 is never compared with the one at index
15.  Sixteen 1s followed by a 0 pass the check although the list is not
non-decreasing. -/
theorem is_sorted_misses_row_boundary :
    is_sorted [1, 1, 1, 1, 1, 1, 1, 1, 1, 1, 1, 1, 1, 1, 1, 1, 0] = true ∧
      ¬ Ascending [1, 1, 1, 1, 1, 1, 1, 1, 1, 1, 1, 1, 1, 1, 1, 1, 0] := by
  decide

/-! ## Element accesses of the partition scan -/

theorem scanLoReads_last (past : Int) (l : List Int) (lp hi fuel lo : Nat) :
    (scanLoReads past l lp hi fuel lo).getLast? = some (scanLo past l lp hi fuel lo) := by
  induction fuel generalizing lo with
  | zero => rfl
  | succ fuel ih =>
    simp only [scanLoReads, scanLo]
    split
    · have := ih (lo + 1)
      cases h : scanLoReads past l lp hi fuel (lo + 1) with
      | nil => rw [h] at this; simp at this
      | cons x xs =>
        rw [h] at this
        rw [List.getLast?_cons_cons]
        exact this
    · rfl

theorem scanLoReads_bound (past : Int) (l : List Int) (lp hi fuel lo : Nat) (hle : lo ≤ hi) :
    ∀ i ∈ scanLoReads past l lp hi fuel lo, lo ≤ i ∧ i ≤ hi := by
  induction fuel generalizing lo with
  | zero =>
    intro i hi'
    simp only [scanLoReads, List.mem_singleton] at hi'
    omega
  | succ fuel ih =>
    intro i hi'
    simp only [scanLoReads] at hi'
    split at hi'
    · rename_i hc
      simp only [List.mem_cons] at hi'
      rcases hi' with rfl | h
      · omega
      · have := ih (lo + 1) (by omega) i h
        omega
    · simp only [List.mem_singleton] at hi'
      omega

/-- C19 fails on the code: entry call on `[1, ..., 15, 0]` with a random source
that always draws the first candidate.  After the bootstrap the prefix is 15
and the pivot is cell 7; the one tail cell, a 0, is below the pivot, so the low
pointer moves to 16, the end of the range, and the scan condition reads `lo[0]`
there before it tests `lo < hi`: index 16 of a range of 16 elements. -/
theorem scan_reads_past_end :
    ∃ b, bootstrap (fun _ => 0) 0 [1, 2, 3, 4, 5, 6, 7, 8, 9, 10, 11, 12, 13, 14, 15, 0] 0 =
        .ok b ∧
      b.list.length = 16 ∧ b.pre = 15 ∧ rewind 0 b.list (b.pre / 2) = 7 ∧
      scanLoReads 0 b.list (rewind 0 b.list (b.pre / 2)) b.list.length
        (b.list.length - b.pre) b.pre = [15, 16] ∧
      ¬ (∀ i ∈ scanLoReads 0 b.list (rewind 0 b.list (b.pre / 2)) b.list.length
        (b.list.length - b.pre) b.pre, i < b.list.length) :=
  ⟨⟨[1, 2, 3, 4, 5, 6, 7, 8, 9, 10, 11, 12, 13, 14, 15, 0], 15, 15, 72⟩,
    by decide!, by decide, by decide, by decide, by decide, by decide⟩

end Plpqsort
